import Mathlib

/-!
# Verification of the hardforge block-diagram subsystem

Shallow embedding, over exact rational arithmetic, of the diagram code in
`src/frontend/src/components/workspace/chat-panel.tsx` (the `BlockDiagramViewer`
component and its helper functions): hierarchical BFS layering (`layoutBlocks`),
orthogonal routing (`getPortPosition`, `findClearVerticalChannel`,
`computeOrthogonalPath`, `insertWaypointsIntoPath`, `applyPointOverrides`),
connection spreading (`connectionOffsets`), the interaction handlers
(wheel zoom, block drag, waypoint insertion/removal) and the persistence
bridge (`loadLayout` / the load and save effects).

Modelling conventions, used throughout:

* JavaScript numbers are modelled as exact rationals (`ℚ`).  All numeric
  literals in the source (`0.01`, `0.2`, `0.7`, …) are exact decimals here.
* A JavaScript `Map` is modelled as an association list `List (κ × ν)` in
  insertion order; `Map.get` is `lookupA`, `Map.set` is `mapSet` (update in
  place if the key is present, append otherwise), `Map.delete` is `mapDelete`.
* SVG path strings: every path string in the program is produced by
  `computeOrthogonalPath` or `pointsToPath` in the exact shape
  `M x y L x y …` and consumed only through `parsePathPoints`, which inverts
  that shape.  Paths are therefore embedded directly as their point lists
  (`List Pt`); `parsePathPoints`/`pointsToPath` become identities and are
  elided.
* `Math.hypot` appears in the source only inside comparisons
  (`dist < bestDist`, `hypot … < 15`, and the point-to-segment distance used
  the same way).  Since squaring is strictly monotone on nonnegative reals,
  we embed squared distances (`hypotSq`, `pointToSegmentDistSq`) and compare
  against squared thresholds; every branch taken is identical to the source.
-/

namespace HardForge

/-! ## Association lists: the JavaScript `Map`/`Set` model -/

/-- `Map.get`: first (and, by `mapSet` discipline, only) binding of a key. -/
def lookupA {κ ν : Type} [DecidableEq κ] : List (κ × ν) → κ → Option ν
  | [], _ => none
  | (k, v) :: rest, a => if k = a then some v else lookupA rest a

/-- Replace the first binding of `k` by `(k, v)`, keeping its position
(JS `Map.set` on a present key). -/
def replaceA {κ ν : Type} [DecidableEq κ] : List (κ × ν) → κ → ν → List (κ × ν)
  | [], _, _ => []
  | (k', v') :: rest, k, v =>
    if k' = k then (k, v) :: rest else (k', v') :: replaceA rest k v

/-- `Map.set`: replace the binding in place when present (JS Maps keep the
original insertion position), append a new binding otherwise. -/
def mapSet {κ ν : Type} [DecidableEq κ] (m : List (κ × ν)) (k : κ) (v : ν) :
    List (κ × ν) :=
  if (lookupA m k).isSome then replaceA m k v else m ++ [(k, v)]

/-- `Map.delete`. -/
def mapDelete {κ ν : Type} [DecidableEq κ] : List (κ × ν) → κ → List (κ × ν)
  | [], _ => []
  | (k', v') :: rest, k =>
    if k' = k then mapDelete rest k else (k', v') :: mapDelete rest k

/-- The `if (!m.has(k)) m.set(k, []); m.get(k)!.push(v)` idiom used for
grouping: append `v` to the list stored under `k`, creating the entry at the
end of the map when missing. -/
def mapPush {κ ν : Type} [DecidableEq κ] (m : List (κ × List ν)) (k : κ) (v : ν) :
    List (κ × List ν) :=
  match lookupA m k with
  | some l => replaceA m k (l ++ [v])
  | none => m ++ [(k, [v])]

/-! ## Data model (`Block`, `BlockConnection` from `types`, derived layout types) -/

/-- A 2-D point (`{ x, y }` in the source). -/
structure Pt where
  x : ℚ
  y : ℚ
  deriving DecidableEq, Repr

/-- A point-override delta (`{ dx, dy }` in the source). -/
structure Delta where
  dx : ℚ
  dy : ℚ
  deriving DecidableEq, Repr

/-- `Block` (from `types`): the diagram reads `id`, `name`, `type`, `inputs`,
`outputs` and the optional `host_hardware`. `host_hardware` is optional and may
also hold the empty string; the source tests it with JS truthiness (`if (hw)`),
captured by `hostFalsy` below. -/
structure Block where
  id : String
  name : String
  type : String
  inputs : List String
  outputs : List String
  host_hardware : Option String
  deriving DecidableEq, Repr

/-- `BlockConnection` (from `types`). -/
structure BlockConnection where
  from_block : String
  to_block : String
  signal_name : String
  signal_type : String
  deriving DecidableEq, Repr

/-- `LayoutBlock`: block reference plus a concrete rectangle. -/
structure LayoutBlock where
  block : Block
  x : ℚ
  y : ℚ
  width : ℚ
  height : ℚ
  deriving DecidableEq, Repr

/-- JS truthiness of `host_hardware` (`undefined` and `""` are falsy). -/
def hostFalsy : Option String → Bool
  | none => true
  | some s => s = ""

/-- Layout constants from the top of the file. -/
def BLOCK_WIDTH : ℚ := 180

def BLOCK_HEADER : ℚ := 36

def PORT_ROW : ℚ := 20

def H_GAP : ℚ := 200

def PADDING : ℚ := 60

def CONNECTION_SPREAD : ℚ := 15

/-- The three override collections held by `BlockDiagramViewer` state
(`blockPositionOverrides`, `connPointOverrides`, `connWaypoints`). -/
structure DiagramState where
  blockPositionOverrides : List (String × Pt)
  connPointOverrides : List (Nat × List Delta)
  connWaypoints : List (Nat × List Pt)
  deriving DecidableEq, Repr

/-! ## Port resolution (`getPortPosition`) and the rendered port centers -/

/-- JS `Array.prototype.indexOf`: index of the first occurrence, `-1` if absent. -/
def jsIndexOf : List String → String → Int
  | [], _ => -1
  | s :: rest, a =>
    if s = a then 0
    else
      let r := jsIndexOf rest a
      if r = -1 then -1 else r + 1

/-- Which side of the block a port sits on. -/
inductive Side
  | input
  | output
  deriving DecidableEq, Repr

/-- `getPortPosition`: resolve a named port to coordinates. Unmatched names
fall back to index 0. -/
def getPortPosition (lb : LayoutBlock) (portName : String) (side : Side) : Pt :=
  let ports := match side with
    | .input => lb.block.inputs
    | .output => lb.block.outputs
  let idx := jsIndexOf ports portName
  let i : Nat := if 0 ≤ idx then idx.toNat else 0
  let x := match side with
    | .input => lb.x
    | .output => lb.x + lb.width
  ⟨x, lb.y + BLOCK_HEADER + 10 + (i : ℚ) * PORT_ROW⟩

/-- The circle center the renderer draws for port `idx` of a block
(the `cx`/`cy` attributes in the input/output port JSX). -/
def renderedPortCenter (lb : LayoutBlock) (side : Side) (idx : Nat) : Pt :=
  let x := match side with
    | .input => lb.x
    | .output => lb.x + lb.width
  ⟨x, lb.y + BLOCK_HEADER + 10 + (idx : ℚ) * PORT_ROW⟩

/-! ## Wheel zoom (`onWheel`, ctrlKey branch) -/

/-- The ctrl-wheel (pinch) branch of the native `wheel` handler: computes the
new zoom (clamped to `[0.2, 5]`) and the new pan that keeps the content point
under the cursor fixed. `mouse` is the cursor position relative to the canvas
(`clientX - rect.left`, `clientY - rect.top`). -/
def onWheelZoom (oldZoom : ℚ) (oldPan : Pt) (mouse : Pt) (deltaY : ℚ) :
    ℚ × Pt :=
  let delta := -deltaY * (1 / 100)
  let newZoom := min (max (oldZoom * (1 + delta)) (1 / 5)) 5
  let contentX := (mouse.x - oldPan.x) / oldZoom
  let contentY := (mouse.y - oldPan.y) / oldZoom
  (newZoom, ⟨mouse.x - contentX * newZoom, mouse.y - contentY * newZoom⟩)

/-- The `ports` list `getPortPosition` searches, by side. -/
def portsOf (lb : LayoutBlock) : Side → List String
  | .input => lb.block.inputs
  | .output => lb.block.outputs

/-! ## Channel search (`lineIntersectsBlock`, `findClearVerticalChannel`) -/

/-- Does a vertical segment at `x` spanning `startY..endY` hit `block`
inflated by `margin`? -/
def lineIntersectsBlock (x startY endY : ℚ) (block : LayoutBlock) (margin : ℚ) :
    Bool :=
  let minY := min startY endY
  let maxY := max startY endY
  let blockLeft := block.x - margin
  let blockRight := block.x + block.width + margin
  let blockTop := block.y - margin
  let blockBottom := block.y + block.height + margin
  decide (blockLeft ≤ x ∧ x ≤ blockRight ∧ blockTop ≤ maxY ∧ minY ≤ blockBottom)

/-- The `!blocks.some(b => lineIntersectsBlock(x, …))` test: `x` is a clear
channel over the segment's y-range. -/
def blocksClearAt (x startY endY : ℚ) (blocks : List LayoutBlock) (margin : ℚ) :
    Bool :=
  !(blocks.any (fun b => lineIntersectsBlock x startY endY b margin))

/-- The probe loop of `findClearVerticalChannel`:
`for (offset = 20; offset <= 300; offset += 20)` runs exactly 15 iterations,
each testing `preferredX - offset` then `preferredX + offset`, returning the
first clear x, and `preferredX` if the budget is exhausted. -/
def channelProbe (preferredX startY endY : ℚ) (blocks : List LayoutBlock) :
    Nat → ℚ → ℚ
  | 0, _ => preferredX
  | n + 1, offset =>
    let leftX := preferredX - offset
    if blocksClearAt leftX startY endY blocks 10 then leftX
    else
      let rightX := preferredX + offset
      if blocksClearAt rightX startY endY blocks 10 then rightX
      else channelProbe preferredX startY endY blocks n (offset + 20)

/-- `findClearVerticalChannel` (margin 10): midpoint if clear, else probe. -/
def findClearVerticalChannel (preferredX startY endY : ℚ)
    (blocks : List LayoutBlock) : ℚ :=
  if blocksClearAt preferredX startY endY blocks 10 then preferredX
  else channelProbe preferredX startY endY blocks 15 20

/-- The offsets the spec describes: alternating left/right in 20-unit steps up
to 300 units, in probe order. -/
def channelProbeOffsets (p : ℚ) : List ℚ :=
  [p - 20, p + 20, p - 40, p + 40, p - 60, p + 60, p - 80, p + 80,
   p - 100, p + 100, p - 120, p + 120, p - 140, p + 140, p - 160, p + 160,
   p - 180, p + 180, p - 200, p + 200, p - 220, p + 220, p - 240, p + 240,
   p - 260, p + 260, p - 280, p + 280, p - 300, p + 300]

/-- The candidate list a probe run with `n` iterations starting at `offset`
visits, in visit order. -/
def probeOffsetsAux (p : ℚ) : Nat → ℚ → List ℚ
  | 0, _ => []
  | n + 1, offset => (p - offset) :: (p + offset) :: probeOffsetsAux p n (offset + 20)

/-! ## Orthogonal path synthesis (`computeOrthogonalPath`) -/

/-- `Math.min(...list, seed)` over a possibly-empty list with a seed value. -/
def jsMinWith (seed : ℚ) (l : List ℚ) : ℚ := l.foldl min seed

/-- `Math.max(...list, seed)`. -/
def jsMaxWith (seed : ℚ) (l : List ℚ) : ℚ := l.foldl max seed

/-- `Math.min(...list)` of a nonempty list (every call site guards emptiness;
the `[]` case is unreachable in the source). -/
def jsMin : List ℚ → ℚ
  | [] => 0
  | h :: t => t.foldl min h

/-- `Math.max(...list)` of a nonempty list. -/
def jsMax : List ℚ → ℚ
  | [] => 0
  | h :: t => t.foldl max h

/-- `computeOrthogonalPath`, with the produced path string `M … L …`
represented as its point list. -/
def computeOrthogonalPath (fromPort toPort : Pt) (allBlocks : List LayoutBlock)
    (sameGroup : Bool) (verticalOffset : ℚ) : List Pt :=
  let exitDistance : ℚ := if sameGroup then 20 else 40
  let exitX := fromPort.x + exitDistance
  let entryX := toPort.x - exitDistance
  let fromY := fromPort.y + verticalOffset
  let toY := toPort.y + verticalOffset
  if |toPort.x - fromPort.x| < BLOCK_WIDTH * (1 / 2) then
    -- SAME-COLUMN connection
    let jogX := fromPort.x + 30 + |verticalOffset|
    [fromPort, ⟨jogX, fromY⟩, ⟨jogX, toY⟩, toPort]
  else if fromPort.x + exitDistance * 2 < toPort.x then
    -- FORWARD connection
    let midX := (exitX + entryX) / 2
    let baseChannelX := findClearVerticalChannel midX fromY toY allBlocks
    let channelX := baseChannelX + verticalOffset * (7 / 10)
    if |fromY - toY| < 1 then [fromPort, toPort]
    else [fromPort, ⟨channelX, fromY⟩, ⟨channelX, toY⟩, toPort]
  else
    -- BACKWARD connection
    let nearSourceBlocks := allBlocks.filter (fun b => |b.y - fromPort.y| < b.height + 40)
    let sourceRight :=
      if nearSourceBlocks.length > 0 then
        jsMaxWith fromPort.x (nearSourceBlocks.map (fun b => b.x + b.width))
      else fromPort.x
    let nearDestBlocks := allBlocks.filter (fun b => |b.y - toPort.y| < b.height + 40)
    let destLeft :=
      if nearDestBlocks.length > 0 then
        jsMinWith toPort.x (nearDestBlocks.map (fun b => b.x))
      else toPort.x
    let loopRightX := sourceRight + 30
    let loopLeftX := destLeft - 30
    if allBlocks.length = 0 then [fromPort, toPort]
    else
      let minTop := jsMin (allBlocks.map (fun b => b.y)) - 40
      let maxBottom := jsMax (allBlocks.map (fun b => b.y + b.height)) + 40
      let goUp := |fromY - minTop| + |toY - minTop| < |fromY - maxBottom| + |toY - maxBottom|
      let loopY := if goUp then minTop + verticalOffset else maxBottom + verticalOffset
      [fromPort, ⟨loopRightX, fromY⟩, ⟨loopRightX, loopY⟩,
       ⟨loopLeftX, loopY⟩, ⟨loopLeftX, toY⟩, toPort]

/-! ## Point-to-segment distances and nearest-segment searches -/

/-- Squared version of `pointToSegmentDist` (`Math.hypot` of the residual);
the source value is the square root of this, and it is only ever compared,
which squaring preserves. -/
def pointToSegmentDistSq (px py ax ay bx by' : ℚ) : ℚ :=
  let dx := bx - ax
  let dy := by' - ay
  let lenSq := dx * dx + dy * dy
  if lenSq = 0 then (px - ax) ^ 2 + (py - ay) ^ 2
  else
    let t := max 0 (min 1 (((px - ax) * dx + (py - ay) * dy) / lenSq))
    (px - (ax + t * dx)) ^ 2 + (py - (ay + t * dy)) ^ 2

/-- The clamped projection parameter `t` computed inside the waypoint
nearest-segment loop (`lenSq === 0 ? 0 : clamp(…)`). -/
def segParamT (p a b : Pt) : ℚ :=
  let dx := b.x - a.x
  let dy := b.y - a.y
  let lenSq := dx * dx + dy * dy
  if lenSq = 0 then 0
  else max 0 (min 1 (((p.x - a.x) * dx + (p.y - a.y) * dy) / lenSq))

/-- One step of the `bestSeg/bestDist` loop pattern (`bestIdx = 0`,
`bestDist = Infinity` initially, strict `<` update; `none` models the
`Infinity` start, against which every distance wins). -/
def nearestIdxStep (pts : List Pt) (q : Pt) (st : Option ℚ × Nat) (s : Nat) :
    Option ℚ × Nat :=
  let a := pts.getD s ⟨0, 0⟩
  let b := pts.getD (s + 1) ⟨0, 0⟩
  let d := pointToSegmentDistSq q.x q.y a.x a.y b.x b.y
  match st.1 with
  | none => (some d, s)
  | some best => if d < best then (some d, s) else st

/-- The `bestSeg/bestDist` loop shared by `handleConnDoubleClick`,
`removeWaypoint` and the hit-testing handlers: scan segments `0..n-2`, keep
the first index attaining the minimum distance. -/
def nearestSegIdx (pts : List Pt) (q : Pt) : Nat :=
  ((List.range (pts.length - 1)).foldl (nearestIdxStep pts q)
    ((none : Option ℚ), 0)).2

/-- One step of the nearest-segment search of `insertWaypointsIntoPath`,
which also records the projection parameter `t` of the best segment. -/
def nearestTStep (pts : List Pt) (q : Pt) (st : Option ℚ × Nat × ℚ) (s : Nat) :
    Option ℚ × Nat × ℚ :=
  let a := pts.getD s ⟨0, 0⟩
  let b := pts.getD (s + 1) ⟨0, 0⟩
  let d := pointToSegmentDistSq q.x q.y a.x a.y b.x b.y
  match st.1 with
  | none => (some d, s, segParamT q a b)
  | some best => if d < best then (some d, s, segParamT q a b) else st

/-- The nearest-segment search of `insertWaypointsIntoPath`. -/
def nearestSegWithT (pts : List Pt) (q : Pt) : Nat × ℚ :=
  ((List.range (pts.length - 1)).foldl (nearestTStep pts q)
    ((none : Option ℚ), 0, 0)).2

/-! ## Splices (`Array.prototype.splice`) and override padding -/

/-- `arr.splice(i, 0, …xs)`: insert `xs` at position `i` (clamped to the
length, as in JS). -/
def spliceIn {α : Type} (l : List α) (i : Nat) (xs : List α) : List α :=
  l.take i ++ xs ++ l.drop i

/-- `arr.splice(i, k)`: delete (up to) `k` elements at position `i`. -/
def spliceOut {α : Type} (l : List α) (i k : Nat) : List α :=
  l.take i ++ l.drop (i + k)

/-- `while (overrides.length < n) overrides.push({dx: 0, dy: 0})`. -/
def padTo (overrides : List Delta) (n : Nat) : List Delta :=
  overrides ++ List.replicate (n - overrides.length) ⟨0, 0⟩

/-! ## Waypoint insertion (`insertWaypointsIntoPath`) -/

/-- One entry of the `wpWithSeg` array. -/
structure WpSeg where
  wp : Pt
  segIdx : Nat
  t : ℚ
  deriving DecidableEq, Repr

/-- The comparator `(a, b) => b.segIdx - a.segIdx || b.t - a.t`: sort by
segment index descending, then `t` descending. -/
def wpSegLE (a b : WpSeg) : Prop :=
  b.segIdx < a.segIdx ∨ (a.segIdx = b.segIdx ∧ b.t ≤ a.t)

instance : DecidableRel wpSegLE := fun a b =>
  inferInstanceAs (Decidable (b.segIdx < a.segIdx ∨ (a.segIdx = b.segIdx ∧ b.t ≤ a.t)))

/-- `insertWaypointsIntoPath`: locate each waypoint's nearest segment on the
original path, then, from the highest segment down, splice in two coincident
points at the clamped split position.  JS `Array.sort` with this consistent
comparator is stable, hence order-unique; the structural `insertionSort`
realizes it.  The source also builds a `segmentMap` that remains empty and is
never consumed; it is elided here. -/
def insertWaypointsIntoPath (points : List Pt) (waypoints : List Pt) : List Pt :=
  if waypoints.isEmpty then points
  else
    let wpWithSeg := waypoints.map (fun wp =>
      let st := nearestSegWithT points wp
      WpSeg.mk wp st.1 st.2)
    let sorted := wpWithSeg.insertionSort wpSegLE
    sorted.foldl (fun pts ws =>
      let p1 := pts.getD ws.segIdx ⟨0, 0⟩
      let p2 := pts.getD (ws.segIdx + 1) ⟨0, 0⟩
      if |p1.y - p2.y| < 1 then
        -- Split horizontal segment: vertical jog at the waypoint's x
        let splitY := p1.y
        let splitX := ((sorted.find? (fun w => w.segIdx = ws.segIdx)).getD ws).wp.x
        let minX := min p1.x p2.x + 5
        let maxX := max p1.x p2.x - 5
        let clampedX := max minX (min maxX splitX)
        spliceIn pts (ws.segIdx + 1) [⟨clampedX, splitY⟩, ⟨clampedX, splitY⟩]
      else
        -- Split vertical segment: horizontal jog at the waypoint's y
        let splitX := p1.x
        let splitY := ((sorted.find? (fun w => w.segIdx = ws.segIdx)).getD ws).wp.y
        let minY := min p1.y p2.y + 5
        let maxY := max p1.y p2.y - 5
        let clampedY := max minY (min maxY splitY)
        spliceIn pts (ws.segIdx + 1) [⟨splitX, clampedY⟩, ⟨splitX, clampedY⟩])
      points

/-! ## Point overrides (`applyPointOverrides`) -/

/-- Move interior path points (indices `1..n-2`) by their override deltas;
endpoints never move, and deltas below the `0.1` threshold are ignored. -/
def applyPointOverrides (points : List Pt) (overrides : List Delta) : List Pt :=
  if points.length < 3 then points
  else
    points.enum.map (fun ip =>
      let i := ip.1
      let p := ip.2
      if 1 ≤ i ∧ i + 1 < points.length then
        match overrides.get? (i - 1) with
        | some ov =>
          if 1 / 10 < |ov.dx| ∨ 1 / 10 < |ov.dy| then ⟨p.x + ov.dx, p.y + ov.dy⟩
          else p
        | none => p
      else p)

/-! ## Connection spreading (`connectionOffsets`) -/

/-- The pair-group key `[conn.from_block, conn.to_block].sort().join('<->')`.
JS `Array.sort` of two strings orders them by the default string comparison;
Lean's `String` order is the same lexicographic comparison (they differ only
on supplementary-plane code points, where UTF-16 code-unit order deviates
from code-point order). -/
def pairKey (c : BlockConnection) : String :=
  if c.from_block ≤ c.to_block then c.from_block ++ "<->" ++ c.to_block
  else c.to_block ++ "<->" ++ c.from_block

/-- `pairGroups`: map from pair key to the list of connection indices sharing
it, in index order (the `connections.forEach((conn, i) => …push(i))` loop). -/
def pairGroups (conns : List BlockConnection) : List (String × List Nat) :=
  conns.enum.foldl (fun m ic => mapPush m (pairKey ic.2) ic.1) []

/-- The spread factor and offset for position `pos` in a group of
`groupSize` parallel connections. -/
def spreadOffset (groupSize : Nat) (pos : Nat) : ℚ :=
  (if groupSize = 1 then 0 else (pos : ℚ) - ((groupSize : ℚ) - 1) / 2) *
    CONNECTION_SPREAD

/-- The inner `indices.forEach((idx, positionInGroup) => offsets.set(idx, …))`
loop for one pair group. -/
def applyGroupOffsets (offsets : List (Nat × ℚ)) (indices : List Nat) :
    List (Nat × ℚ) :=
  indices.enum.foldl
    (fun offs pi => mapSet offs pi.2 (spreadOffset indices.length pi.1)) offsets

/-- `connectionOffsets`: per-connection vertical offsets, keyed by connection
index. -/
def connectionOffsets (conns : List BlockConnection) : List (Nat × ℚ) :=
  (pairGroups conns).foldl (fun offsets entry => applyGroupOffsets offsets entry.2) []

/-- The indices of the connections sharing a pair key, in index order
(the spec's "stable order of their connection indices"). -/
def specIndices (conns : List BlockConnection) (key : String) : List Nat :=
  (conns.enum.filter (fun p => pairKey p.2 = key)).map Prod.fst

/-! ## Persistence bridge (`getLayoutKey`, `loadLayout`, `saveLayout`,
and the load/save effects of `BlockDiagramViewer`) -/

/-- The serialized `LayoutData` record (three association lists). -/
structure LayoutData where
  blockPositions : List (String × Pt)
  pointOverrides : List (Nat × List Delta)
  waypoints : List (Nat × List Pt)
  deriving DecidableEq, Repr

/-- What the keyed store can hold under a layout key: a string that is not
valid JSON (`JSON.parse` throws), or a parsed JSON object in which any of the
three lists may be absent — the `as LayoutData` cast in `loadLayout` performs
no validation, so absent fields surface as `undefined` to the consumer. -/
inductive StoredRecord where
  | malformed : StoredRecord
  | record : Option (List (String × Pt)) → Option (List (Nat × List Delta)) →
      Option (List (Nat × List Pt)) → StoredRecord
  deriving DecidableEq

/-- The keyed store (`localStorage`), restricted to the layout keys. -/
abbrev Store := List (String × StoredRecord)

/-- `getLayoutKey`. -/
def getLayoutKey (designId : String) : String := "hardforge-layout-" ++ designId

/-- The parsed value `loadLayout` returns (the unvalidated cast). -/
structure ParsedLayout where
  blockPositions : Option (List (String × Pt))
  pointOverrides : Option (List (Nat × List Delta))
  waypoints : Option (List (Nat × List Pt))
  deriving DecidableEq

/-- `loadLayout`: `null` for a missing record and for one that fails to parse
(the `try … catch`); otherwise the parsed value, unvalidated. -/
def loadLayout (store : Store) (designId : String) : Option ParsedLayout :=
  match lookupA store (getLayoutKey designId) with
  | none => none
  | some .malformed => none
  | some (.record bp po wp) => some ⟨bp, po, wp⟩

/-- A thrown JavaScript `TypeError` (reading `.length` of `undefined`). -/
inductive JsError where
  | typeError
  deriving DecidableEq

/-- The load effect (the `useEffect` on `[designId]`): reads the saved layout
and, for each list with `length > 0`, replaces the corresponding override
collection.  Accessing `.length` of an absent field throws, which this model
surfaces as `Except.error`. -/
def loadLayoutEffect (store : Store) (designId : String) (s : DiagramState) :
    Except JsError DiagramState :=
  match loadLayout store designId with
  | none => .ok s
  | some saved =>
    match saved.blockPositions with
    | none => .error .typeError
    | some bps =>
      let s1 := if bps.length > 0 then { s with blockPositionOverrides := bps } else s
      match saved.pointOverrides with
      | none => .error .typeError
      | some pos =>
        let s2 := if pos.length > 0 then { s1 with connPointOverrides := pos } else s1
        match saved.waypoints with
        | none => .error .typeError
        | some wps =>
          .ok (if wps.length > 0 then { s2 with connWaypoints := wps } else s2)

/-- The record the debounced save effect would write, or `none` when the
effect returns early because all three collections are empty (lines 909–926:
`if (… .size === 0 && … .size === 0 && … .size === 0) return`). -/
def saveEffectWrite (s : DiagramState) : Option LayoutData :=
  if s.blockPositionOverrides = [] ∧ s.connPointOverrides = [] ∧
      s.connWaypoints = [] then none
  else some ⟨s.blockPositionOverrides, s.connPointOverrides, s.connWaypoints⟩

/-- Applying a (possibly absent) scheduled write to the store
(`saveLayout` serializes all three lists, so every written record has all
three fields present). -/
def applySave (store : Store) (designId : String) : Option LayoutData → Store
  | none => store
  | some data =>
    mapSet store (getLayoutKey designId)
      (.record (some data.blockPositions) (some data.pointOverrides)
        (some data.waypoints))

/-! ## Hierarchical partitioner and layerer (`layoutBlocks`, levels 1–2) -/

/-- LEVEL 1 partition loop: blocks with a truthy `host_hardware` are grouped
under it (`hwGroupMap` push idiom); each other block gets a fresh
`__solo_<n>` key (`Map.set`, which would overwrite a real hardware name that
happens to collide). -/
def hwGroupFold : List Block → Nat → List (String × List Block) →
    List (String × List Block)
  | [], _, m => m
  | b :: rest, solo, m =>
    if hostFalsy b.host_hardware then
      hwGroupFold rest (solo + 1) (mapSet m ("__solo_" ++ toString solo) [b])
    else
      hwGroupFold rest solo (mapPush m (b.host_hardware.getD "") b)

/-- The hardware groups of a block list, in first-encounter order. -/
def hwGroupsOf (blocks : List Block) : List (String × List Block) :=
  hwGroupFold blocks 0 []

/-- The ids of a group's blocks (`groupBlockIds`). -/
def groupIds (gblocks : List Block) : List String := gblocks.map (fun b => b.id)

/-- A JS `Set` built by insertion: keep the first occurrence of each element. -/
def dedupFirstAux {α : Type} [DecidableEq α] : List α → List α → List α
  | _, [] => []
  | seen, a :: t =>
    if a ∈ seen then dedupFirstAux seen t else a :: dedupFirstAux (a :: seen) t

def dedupFirst {α : Type} [DecidableEq α] (l : List α) : List α :=
  dedupFirstAux [] l

/-- `intraOutgoing.get(id)`: destinations of intra-group connections leaving
`id` (a JS `Set`, i.e. deduplicated in first-insertion order). -/
def intraOutgoing (gids : List String) (conns : List BlockConnection)
    (id : String) : List String :=
  dedupFirst ((conns.filter (fun c =>
      decide (c.from_block ∈ gids) && decide (c.to_block ∈ gids) &&
        decide (c.from_block = id))).map (fun c => c.to_block))

/-- `intraIncoming.get(id)`: intra-group predecessors of `id`. -/
def intraPreds (gids : List String) (conns : List BlockConnection)
    (id : String) : List String :=
  dedupFirst ((conns.filter (fun c =>
      decide (c.from_block ∈ gids) && decide (c.to_block ∈ gids) &&
        decide (c.to_block = id))).map (fun c => c.from_block))

/-- The BFS frontier-expansion loop shared verbatim by the group-level and
block-level layering (`while (frontier.length > 0) { assign col; next =
unassigned successors; col++ }`).  The source's `while` terminates because
every nonempty frontier assigns at least one new node; the fuel passed by the
callers (`#nodes + 1`) provably never runs out. Returns the assignment map and
the final column counter (used for the disconnected fallback). -/
def assignFold {α : Type} [DecidableEq α] (frontier : List α) (col : Nat)
    (assigned : List (α × Nat)) : List (α × Nat) :=
  frontier.foldl
    (fun acc id => if (lookupA acc id).isSome then acc else acc ++ [(id, col)])
    assigned

def nextFold {α : Type} [DecidableEq α] (outgoing : α → List α)
    (frontier : List α) (assigned' : List (α × Nat)) : List α :=
  frontier.foldl (fun acc id =>
    (outgoing id).foldl (fun acc2 dest =>
      if (lookupA assigned' dest).isSome ∨ dest ∈ acc2 then acc2
      else acc2 ++ [dest]) acc) []

def bfsLoop {α : Type} [DecidableEq α] (outgoing : α → List α) :
    Nat → List α → Nat → List (α × Nat) → (List (α × Nat) × Nat)
  | 0, _, col, assigned => (assigned, col)
  | fuel + 1, frontier, col, assigned =>
    if frontier.isEmpty then (assigned, col)
    else
      let assigned' := assignFold frontier col assigned
      bfsLoop outgoing fuel (nextFold outgoing frontier assigned') (col + 1)
        assigned'

/-- LEVEL 2 (per-group) layering: BFS from the intra-group roots, then the
disconnected fallback assigning the final column counter. -/
def blockColumnsOfGroup (gblocks : List Block) (conns : List BlockConnection) :
    List (String × Nat) :=
  let gids := groupIds gblocks
  let roots := (gblocks.filter
    (fun b => (intraPreds gids conns b.id).isEmpty)).map (fun b => b.id)
  let result := bfsLoop (intraOutgoing gids conns) (gblocks.length + 1) roots 0 []
  assignFold gids result.2 result.1

/-- `blockToGroupIdx`: block id → index of its group. -/
def blockToGroupIdx (groups : List (String × List Block)) : List (String × Nat) :=
  groups.enum.foldl
    (fun m ig => ig.2.2.foldl (fun m2 b => mapSet m2 b.id ig.1) m) []

/-- `groupOutgoing.get(gIdx)`: indices of groups reached by connections whose
endpoints fall in different groups. -/
def groupOutgoing (groups : List (String × List Block))
    (conns : List BlockConnection) (gIdx : Nat) : List Nat :=
  (conns.filterMap (fun c =>
    match lookupA (blockToGroupIdx groups) c.from_block,
        lookupA (blockToGroupIdx groups) c.to_block with
    | some f, some t => if f ≠ t ∧ f = gIdx then some t else none
    | _, _ => none)).eraseDups

/-- Whether `groupIncoming.get(gIdx)` is nonempty. -/
def groupHasIncoming (groups : List (String × List Block))
    (conns : List BlockConnection) (gIdx : Nat) : Bool :=
  conns.any (fun c =>
    match lookupA (blockToGroupIdx groups) c.from_block,
        lookupA (blockToGroupIdx groups) c.to_block with
    | some f, some t => decide (f ≠ t) && decide (t = gIdx)
    | _, _ => false)

/-- Group-level BFS layering plus the disconnected-group fallback. -/
def groupColumns (groups : List (String × List Block))
    (conns : List BlockConnection) : List (Nat × Nat) :=
  let roots := (List.range groups.length).filter
    (fun i => !(groupHasIncoming groups conns i))
  let result := bfsLoop (groupOutgoing groups conns) (groups.length + 1) roots 0 []
  (List.range groups.length).foldl (fun acc i =>
    if (lookupA acc i).isSome then acc else acc ++ [(i, result.2)]) result.1

/-! ## Block layout engine (`layoutBlocks`, levels 2–3 geometry) -/

/-- `subColGroups`: blocks keyed by their assigned sub-column, in
first-encounter order (the source iterates this map in insertion order, not
sorted). -/
def subColGroupsOf (gblocks : List Block) (cols : List (String × Nat)) :
    List (Nat × List Block) :=
  gblocks.foldl (fun m b => mapPush m ((lookupA cols b.id).getD 0) b) []

/-- Stack the blocks of one sub-column vertically (block height =
header + max(#in, #out, 1) × port row + 12; vertical gap 20; x =
subCol × (BLOCK_WIDTH + 40)). Returns the stacked blocks and the final
`yOffset`. -/
def stackColumn (subCol : Nat) (bl : List Block) : List LayoutBlock × ℚ :=
  bl.foldl (fun st b =>
    let maxPorts := max (max b.inputs.length b.outputs.length) 1
    let h : ℚ := BLOCK_HEADER + (maxPorts : ℚ) * PORT_ROW + 12
    (st.1 ++ [⟨b, (subCol : ℚ) * (BLOCK_WIDTH + 40), st.2, BLOCK_WIDTH, h⟩],
     st.2 + h + 20)) ([], 0)

/-- A group's relative (`tempLayout`) block rectangles. -/
def groupTempLayout (gblocks : List Block) (conns : List BlockConnection) :
    List LayoutBlock :=
  (subColGroupsOf gblocks (blockColumnsOfGroup gblocks conns)).foldl
    (fun acc scg => acc ++ (stackColumn scg.1 scg.2).1) []

/-- A group's bounding width/height (zero when it laid out no blocks, as the
source initializes them). -/
def groupDims (tempLayout : List LayoutBlock) : ℚ × ℚ :=
  if tempLayout.isEmpty then (0, 0)
  else
    let minX := jsMin (tempLayout.map (fun lb => lb.x))
    let minY := jsMin (tempLayout.map (fun lb => lb.y))
    let maxX := jsMax (tempLayout.map (fun lb => lb.x + lb.width))
    let maxY := jsMax (tempLayout.map (fun lb => lb.y + lb.height))
    (maxX - minX + 20 * 2, maxY - minY + 30 + 20)

/-- `layoutBlocks`: the full hardware-aware layout.  LEVEL 3 tiles the groups
by column (sorted ascending), stacking the groups of a column vertically from
`PADDING` and advancing `canvasX` by the column's max width plus `H_GAP`;
every group's blocks are finally translated by its position plus the group
padding (20, 30). The source's dead `blockIncoming`/`blockOutgoing` maps
(built at the top of the function but never read) are elided. -/
def layoutBlocks (blocks : List Block) (conns : List BlockConnection) :
    List LayoutBlock :=
  if blocks.isEmpty then []
  else
    let hwGroups := hwGroupsOf blocks
    let gcols := groupColumns hwGroups conns
    let temps := hwGroups.map (fun g => groupTempLayout g.2 conns)
    let dims := temps.map groupDims
    let colMap : List (Nat × List Nat) :=
      (List.range hwGroups.length).foldl
        (fun m i => mapPush m ((lookupA gcols i).getD 0) i) []
    let sortedCols := (colMap.map Prod.fst).insertionSort (· ≤ ·)
    let posFold := sortedCols.foldl
      (fun (st : ℚ × List (Nat × Pt)) col =>
        let colGroups := (lookupA colMap col).getD []
        let maxWidth := jsMax (colGroups.map (fun i => (dims.getD i (0, 0)).1))
        let inner := colGroups.foldl
          (fun (st2 : ℚ × List (Nat × Pt)) i =>
            (st2.1 + (dims.getD i (0, 0)).2 + 40,
             st2.2 ++ [(i, ⟨st.1, st2.1⟩)]))
          (PADDING, st.2)
        (st.1 + maxWidth + H_GAP, inner.2))
      (PADDING, [])
    (List.range hwGroups.length).foldl (fun acc i =>
      let pos := (lookupA posFold.2 i).getD ⟨0, 0⟩
      acc ++ (temps.getD i []).map (fun lb =>
        { lb with x := lb.x + pos.x + 20, y := lb.y + pos.y + 30 })) []

/-! ## Interaction: block dragging (`handleCanvasMouseMove`, block branch) -/

/-- The `dragStartPos` ref recorded on block mouse-down. -/
structure DragStart where
  blockX : ℚ
  blockY : ℚ
  mouseX : ℚ
  mouseY : ℚ
  deriving DecidableEq, Repr

/-- The committed drag position: start position plus the zoom-scaled pointer
delta, clamped to nonnegative coordinates. -/
def dragTarget (ds : DragStart) (zoom : ℚ) (e : Pt) : Pt :=
  ⟨max 0 (ds.blockX + (e.x - ds.mouseX) / zoom),
   max 0 (ds.blockY + (e.y - ds.mouseY) / zoom)⟩

/-- The block-drag branch of `handleCanvasMouseMove`: below the 5-pixel
threshold nothing moves; past it, the dragged block's override is set to the
start position plus the zoom-scaled pointer delta, clamped to nonnegative
coordinates.  Only the block-position override map is written. -/
def handleCanvasMouseMoveBlockDrag (activeBlock : String) (ds : DragStart)
    (zoom : ℚ) (e : Pt) (s : DiagramState) : DiagramState :=
  let rawDx := e.x - ds.mouseX
  let rawDy := e.y - ds.mouseY
  if |rawDx| < 5 ∧ |rawDy| < 5 then s
  else
    { s with blockPositionOverrides :=
        mapSet s.blockPositionOverrides activeBlock (dragTarget ds zoom e) }

/-- `handleCanvasMouseUp` clears the drag refs; the override state is
untouched, so a drag past the threshold keeps its last position. -/
def handleCanvasMouseUp (s : DiagramState) : DiagramState := s

/-- The `layout` memo: the pure computed layout with block-position overrides
applied on top. -/
def layoutWithOverrides (blocks : List Block) (conns : List BlockConnection)
    (bpo : List (String × Pt)) : List LayoutBlock :=
  (layoutBlocks blocks conns).map (fun lb =>
    match lookupA bpo lb.block.id with
    | some p => { lb with x := p.x, y := p.y }
    | none => lb)

/-! ## Acyclicity and the per-group layering theorem (claim C1) -/

/-- The edge relation of the connection list: `u → v` when some connection
goes from `u` to `v`. -/
def connEdge (conns : List BlockConnection) (u v : String) : Prop :=
  ∃ c ∈ conns, c.from_block = u ∧ c.to_block = v

/-- Acyclicity of the connection graph, as well-foundedness of its edge
relation (equivalent to the absence of directed cycles on the finitely many
connected ids). -/
def AcyclicConnections (conns : List BlockConnection) : Prop :=
  WellFounded (connEdge conns)

/-- The roots of the per-group BFS: ids of blocks without intra-group
predecessors. -/
def groupRoots (gblocks : List Block) (conns : List BlockConnection) :
    List String :=
  (gblocks.filter
    (fun b => (intraPreds (groupIds gblocks) conns b.id).isEmpty)).map
    (fun b => b.id)

/-- A diamond `a → b`, `a → c`, `b → c` inside one hardware group `H`:
the BFS reaches `c` at column 1 (via `a → c`) although its predecessor `b`
also sits at column 1. -/
def diamondBlocks : List Block :=
  [⟨"a", "A", "adc", [], ["o1", "o2"], some "H"⟩,
   ⟨"b", "B", "mcu", ["i1"], ["o1"], some "H"⟩,
   ⟨"c", "C", "dac", ["i1", "i2"], [], some "H"⟩]

def diamondConns : List BlockConnection :=
  [⟨"a", "b", "s1", "data"⟩, ⟨"a", "c", "s2", "data"⟩, ⟨"b", "c", "s3", "data"⟩]

def diamondRank (s : String) : Nat :=
  if s = "a" then 0 else if s = "b" then 1 else 2

/-! ## Waypoint insertion and removal (claim C2) -/

/-- `areBlocksInSameGroup`: both endpoint blocks resolve and carry the same
truthy `host_hardware`. -/
def areBlocksInSameGroup (fromId toId : String)
    (layoutMap : List (String × LayoutBlock)) : Bool :=
  match lookupA layoutMap fromId, lookupA layoutMap toId with
  | some fromLb, some toLb =>
    if hostFalsy fromLb.block.host_hardware || hostFalsy toLb.block.host_hardware
    then false
    else decide
      (fromLb.block.host_hardware.getD "" = toLb.block.host_hardware.getD "")
  | _, _ => false

/-- The base (un-waypointed, un-overridden) path of connection `connIdx`: the
`fromPort`/`toPort`/`sameGroup`/`vertOffset`/`computeOrthogonalPath` prelude
shared verbatim by `computedPaths`, `handleConnDoubleClick` and
`removeWaypoint`. `none` models the `if (fromLb && toLb)` guard failing
(every handler call site passes the index of a rendered connection, so
`connections[connIdx]` resolves there; the `none` first case covers the
otherwise-unreachable out-of-range index). -/
def basePathOf (conns : List BlockConnection)
    (layoutMap : List (String × LayoutBlock)) (allBlocks : List LayoutBlock)
    (connIdx : Nat) : Option (List Pt) :=
  match conns.get? connIdx with
  | none => none
  | some conn =>
    match lookupA layoutMap conn.from_block, lookupA layoutMap conn.to_block with
    | some fromLb, some toLb =>
      let fromPort := getPortPosition fromLb conn.signal_name .output
      let toPort := getPortPosition toLb conn.signal_name .input
      let sameGroup := areBlocksInSameGroup conn.from_block conn.to_block layoutMap
      let vertOffset := (lookupA (connectionOffsets conns) connIdx).getD 0
      some (computeOrthogonalPath fromPort toPort allBlocks sameGroup vertOffset)
    | _, _ => none

/-- `existingWps.findIndex((wp) => Math.hypot(wp.x - svgX, wp.y - svgY) < 15)`
(compared in squared form), as an `Option Nat` (`-1` becomes `none`). -/
def findRemoveIdx (wps : List Pt) (click : Pt) : Option Nat :=
  (wps.enum.find? (fun iwp =>
    (iwp.2.x - click.x) ^ 2 + (iwp.2.y - click.y) ^ 2 < 225)).map Prod.fst

/-- `removeWaypoint(connIdx, wpIdx)`: drop the waypoint, then locate its
nearest segment on the un-waypointed base path and splice out (up to) two
point-override entries at `bestSeg + wpIdx * 2`; empty collections delete
their map key. -/
def removeWaypoint (conns : List BlockConnection)
    (layoutMap : List (String × LayoutBlock)) (allBlocks : List LayoutBlock)
    (connIdx wpIdx : Nat) (s : DiagramState) : DiagramState :=
  let existingWps := (lookupA s.connWaypoints connIdx).getD []
  let wps := spliceOut existingWps wpIdx 1
  let waypoints1 :=
    if wps.length = 0 then mapDelete s.connWaypoints connIdx
    else mapSet s.connWaypoints connIdx wps
  let overrides0 := (lookupA s.connPointOverrides connIdx).getD []
  let overrides :=
    match basePathOf conns layoutMap allBlocks connIdx with
    | none => overrides0
    | some basePoints =>
      let wpPt := existingWps.getD wpIdx ⟨0, 0⟩
      let bestSeg := nearestSegIdx basePoints wpPt
      let removeAt := bestSeg + wpIdx * 2
      if removeAt < overrides0.length then
        spliceOut overrides0 removeAt (min 2 (overrides0.length - removeAt))
      else overrides0
  let overrides1 :=
    if overrides.length = 0 then mapDelete s.connPointOverrides connIdx
    else mapSet s.connPointOverrides connIdx overrides
  { s with connWaypoints := waypoints1, connPointOverrides := overrides1 }

/-- `handleConnDoubleClick(connIdx, e)` at SVG point `click`: remove the
clicked waypoint if one lies within 15 units, else append a new waypoint and
splice two zero point-override entries at the segment of the (previously)
expanded path nearest to the click, after padding the override array to that
path's interior-point count. -/
def handleConnDoubleClick (conns : List BlockConnection)
    (layoutMap : List (String × LayoutBlock)) (allBlocks : List LayoutBlock)
    (connIdx : Nat) (click : Pt) (s : DiagramState) : DiagramState :=
  let existingWps := (lookupA s.connWaypoints connIdx).getD []
  match findRemoveIdx existingWps click with
  | some removeIdx => removeWaypoint conns layoutMap allBlocks connIdx removeIdx s
  | none =>
    let wps := existingWps ++ [click]
    let waypoints1 := mapSet s.connWaypoints connIdx wps
    let overrides0 := (lookupA s.connPointOverrides connIdx).getD []
    let overrides :=
      match basePathOf conns layoutMap allBlocks connIdx with
      | none => overrides0
      | some basePath =>
        let expandedPts := insertWaypointsIntoPath basePath existingWps
        let padded := padTo overrides0 (expandedPts.length - 2)
        let bestSeg := nearestSegIdx expandedPts click
        spliceIn padded bestSeg [⟨0, 0⟩, ⟨0, 0⟩]
    { s with connWaypoints := waypoints1,
             connPointOverrides := mapSet s.connPointOverrides connIdx overrides }

/-- The rendered polyline of connection `connIdx` (`computedPaths[i]`):
base path, waypoint expansion, then point overrides when a nonempty override
list is present. -/
def computedPath (conns : List BlockConnection)
    (layoutMap : List (String × LayoutBlock)) (allBlocks : List LayoutBlock)
    (s : DiagramState) (connIdx : Nat) : Option (List Pt) :=
  match basePathOf conns layoutMap allBlocks connIdx with
  | none => none
  | some basePath =>
    let wps := (lookupA s.connWaypoints connIdx).getD []
    let wpPath := insertWaypointsIntoPath basePath wps
    match lookupA s.connPointOverrides connIdx with
    | some pointOvs =>
      if 0 < pointOvs.length then some (applyPointOverrides wpPath pointOvs)
      else some wpPath
    | none => some wpPath

/-- A minimal two-block scenario: `a`'s output port sits at `(180, 46)`,
`b`'s input port at `(200, 246)`; their x-separation (20) is under half a
block width, so the router takes the same-column branch and produces the
4-point base path `(180,46) (210,46) (210,246) (200,246)`. -/
def cexBlockA : Block := ⟨"a", "A", "src", [], ["s"], none⟩

def cexBlockB : Block := ⟨"b", "B", "dst", ["s"], [], none⟩

def cexLayoutA : LayoutBlock := ⟨cexBlockA, 0, 0, 180, 66⟩

def cexLayoutB : LayoutBlock := ⟨cexBlockB, 200, 200, 180, 66⟩

def cexLayoutMap : List (String × LayoutBlock) :=
  [("a", cexLayoutA), ("b", cexLayoutB)]

def cexLayout : List LayoutBlock := [cexLayoutA, cexLayoutB]

def cexConns : List BlockConnection := [⟨"a", "b", "s", "data"⟩]

/-! ## Theorems -/

theorem lookupA_append {κ ν : Type} [DecidableEq κ] (l₁ l₂ : List (κ × ν)) (k : κ) :
    lookupA (l₁ ++ l₂) k = ((lookupA l₁ k).or (lookupA l₂ k)) := by
  induction l₁ with
  | nil => simp [lookupA]
  | cons h t ih =>
    obtain ⟨hk, hv⟩ := h
    by_cases hkk : hk = k <;> simp [lookupA, hkk, ih]

theorem lookupA_replaceA_self {κ ν : Type} [DecidableEq κ]
    (m : List (κ × ν)) (k : κ) (v : ν) (hit : (lookupA m k).isSome) :
    lookupA (replaceA m k v) k = some v := by
  induction m with
  | nil => simp [lookupA] at hit
  | cons hd tl ih =>
    obtain ⟨hk, hv⟩ := hd
    by_cases hkk : hk = k
    · simp [replaceA, hkk, lookupA]
    · simp only [lookupA, hkk, if_false] at hit
      simpa [replaceA, hkk, lookupA] using ih hit

theorem lookupA_replaceA_ne {κ ν : Type} [DecidableEq κ]
    (m : List (κ × ν)) (k k' : κ) (v : ν) (h : k' ≠ k) :
    lookupA (replaceA m k v) k' = lookupA m k' := by
  induction m with
  | nil => rfl
  | cons hd tl ih =>
    obtain ⟨hk, hv⟩ := hd
    by_cases hkk : hk = k
    · subst hkk
      simp [replaceA, lookupA, Ne.symm h]
    · by_cases hk' : hk = k'
      · simp [replaceA, hkk, lookupA, hk', h]
      · simpa [replaceA, hkk, lookupA, hk'] using ih

theorem lookupA_mapSet_self {κ ν : Type} [DecidableEq κ]
    (m : List (κ × ν)) (k : κ) (v : ν) : lookupA (mapSet m k v) k = some v := by
  unfold mapSet
  by_cases h : (lookupA m k).isSome
  · rw [if_pos h]
    exact lookupA_replaceA_self m k v h
  · have hnone : lookupA m k = none := by
      cases hm : lookupA m k
      · rfl
      · simp [hm] at h
    rw [if_neg h, lookupA_append, hnone]
    simp [lookupA]

theorem lookupA_mapSet_ne {κ ν : Type} [DecidableEq κ]
    (m : List (κ × ν)) (k k' : κ) (v : ν) (h : k' ≠ k) :
    lookupA (mapSet m k v) k' = lookupA m k' := by
  unfold mapSet
  by_cases hs : (lookupA m k).isSome
  · rw [if_pos hs]
    exact lookupA_replaceA_ne m k k' v h
  · rw [if_neg hs, lookupA_append]
    cases hl : lookupA m k' <;> simp [hl, lookupA, Ne.symm h]

theorem lookupA_mapDelete_self {κ ν : Type} [DecidableEq κ]
    (m : List (κ × ν)) (k : κ) : lookupA (mapDelete m k) k = none := by
  induction m with
  | nil => rfl
  | cons hd tl ih =>
    obtain ⟨hk, hv⟩ := hd
    by_cases hkk : hk = k
    · simpa [mapDelete, hkk] using ih
    · simpa [mapDelete, lookupA, hkk] using ih

theorem lookupA_mapDelete_ne {κ ν : Type} [DecidableEq κ]
    (m : List (κ × ν)) (k k' : κ) (h : k' ≠ k) :
    lookupA (mapDelete m k) k' = lookupA m k' := by
  induction m with
  | nil => rfl
  | cons hd tl ih =>
    obtain ⟨hk, hv⟩ := hd
    by_cases hkk : hk = k
    · subst hkk
      simpa [mapDelete, lookupA, Ne.symm h] using ih
    · by_cases hk' : hk = k'
      · simp [mapDelete, lookupA, hkk, hk', h]
      · simpa [mapDelete, lookupA, hkk, hk'] using ih

theorem lookupA_mapPush_self {κ ν : Type} [DecidableEq κ]
    (m : List (κ × List ν)) (k : κ) (v : ν) :
    lookupA (mapPush m k v) k = some ((lookupA m k).getD [] ++ [v]) := by
  unfold mapPush
  cases hm : lookupA m k with
  | none =>
    rw [lookupA_append, hm]
    simp [lookupA]
  | some l =>
    have hit : (lookupA m k).isSome := by simp [hm]
    rw [lookupA_replaceA_self m k _ hit]
    simp

theorem lookupA_mapPush_ne {κ ν : Type} [DecidableEq κ]
    (m : List (κ × List ν)) (k k' : κ) (v : ν) (h : k' ≠ k) :
    lookupA (mapPush m k v) k' = lookupA m k' := by
  unfold mapPush
  cases hm : lookupA m k with
  | none =>
    rw [lookupA_append]
    cases hl : lookupA m k' <;> simp [hl, lookupA, Ne.symm h]
  | some l => exact lookupA_replaceA_ne m k k' _ h

theorem jsIndexOf_eq_neg_one_of_not_mem (l : List String) (a : String)
    (h : a ∉ l) : jsIndexOf l a = -1 := by
  induction l with
  | nil => rfl
  | cons s rest ih =>
    have hs : s ≠ a := by
      intro hsa
      exact h (hsa ▸ List.mem_cons_self s rest)
    have hr : a ∉ rest := fun hm => h (List.mem_cons_of_mem s hm)
    simp [jsIndexOf, hs, ih hr]

theorem jsIndexOf_eq_indexOf_of_mem (l : List String) (a : String)
    (h : a ∈ l) : jsIndexOf l a = (l.indexOf a : Int) ∧ 0 ≤ jsIndexOf l a := by
  induction l with
  | nil => cases h
  | cons s rest ih =>
    by_cases hs : s = a
    · subst hs
      simp [jsIndexOf, List.indexOf_cons_self]
    · have hm : a ∈ rest := by
        rcases List.mem_cons.mp h with h1 | h2
        · exact absurd h1.symm hs
        · exact h2
      obtain ⟨hv, hnn⟩ := ih hm
      have hne : jsIndexOf rest a ≠ -1 := by
        intro hc
        rw [hc] at hnn
        norm_num at hnn
      have : (s == a) = false := by simp [hs]
      simp only [jsIndexOf, hs, if_false, hne, if_neg hne]
      constructor
      · rw [List.indexOf_cons, this, cond_false, hv]
        push_cast
        ring
      · omega

theorem onWheelZoom_pos (oldZoom : ℚ) (oldPan : Pt) (mouse : Pt) (deltaY : ℚ) :
    (1 : ℚ) / 5 ≤ (onWheelZoom oldZoom oldPan mouse deltaY).1 := by
  unfold onWheelZoom
  have h1 : (1 : ℚ) / 5 ≤ max (oldZoom * (1 + -deltaY * (1 / 100))) (1 / 5) :=
    le_max_right _ _
  have h2 : (1 : ℚ) / 5 ≤ (5 : ℚ) := by norm_num
  simpa using le_min h1 h2

/-- Claim C6: ctrl-wheel zoom keeps the content-space coordinate under the
cursor fixed — `(P - pan) / zoom` is identical before and after the update —
and the resulting zoom factor lies in `[0.2, 5]`. -/
theorem C6_zoom_anchor_preserved (oldZoom : ℚ) (oldPan : Pt) (mouse : Pt)
    (deltaY : ℚ) :
    ((mouse.x - (onWheelZoom oldZoom oldPan mouse deltaY).2.x) /
        (onWheelZoom oldZoom oldPan mouse deltaY).1 =
      (mouse.x - oldPan.x) / oldZoom ∧
     (mouse.y - (onWheelZoom oldZoom oldPan mouse deltaY).2.y) /
        (onWheelZoom oldZoom oldPan mouse deltaY).1 =
      (mouse.y - oldPan.y) / oldZoom) ∧
    (1 : ℚ) / 5 ≤ (onWheelZoom oldZoom oldPan mouse deltaY).1 ∧
    (onWheelZoom oldZoom oldPan mouse deltaY).1 ≤ 5 := by
  have hpos := onWheelZoom_pos oldZoom oldPan mouse deltaY
  have hne : (onWheelZoom oldZoom oldPan mouse deltaY).1 ≠ 0 := by
    intro h
    rw [h] at hpos
    norm_num at hpos
  refine ⟨⟨?_, ?_⟩, hpos, ?_⟩
  · show (mouse.x - (mouse.x - (mouse.x - oldPan.x) / oldZoom *
      (onWheelZoom oldZoom oldPan mouse deltaY).1)) /
      (onWheelZoom oldZoom oldPan mouse deltaY).1 = (mouse.x - oldPan.x) / oldZoom
    field_simp
    rw [mul_div_mul_right _ _ hne]
  · show (mouse.y - (mouse.y - (mouse.y - oldPan.y) / oldZoom *
      (onWheelZoom oldZoom oldPan mouse deltaY).1)) /
      (onWheelZoom oldZoom oldPan mouse deltaY).1 = (mouse.y - oldPan.y) / oldZoom
    field_simp
    rw [mul_div_mul_right _ _ hne]
  · exact min_le_right _ _

/-- Claim C9: port resolution is total — it always returns a value (the Lean
function is total by construction, mirroring the throw-free source) — and it
returns the rendered center of the port at the named port's first index when
the name occurs in the block's list for that side, and of index 0 otherwise. -/
theorem C9_port_lookup_total (lb : LayoutBlock) (portName : String) (side : Side) :
    getPortPosition lb portName side =
      renderedPortCenter lb side
        (if portName ∈ portsOf lb side then (portsOf lb side).indexOf portName
         else 0) := by
  cases side with
  | input =>
    by_cases hmem : portName ∈ lb.block.inputs
    · obtain ⟨hval, _⟩ := jsIndexOf_eq_indexOf_of_mem lb.block.inputs portName hmem
      simp [getPortPosition, renderedPortCenter, portsOf, hmem, hval]
    · have hneg := jsIndexOf_eq_neg_one_of_not_mem lb.block.inputs portName hmem
      simp [getPortPosition, renderedPortCenter, portsOf, hmem, hneg]
  | output =>
    by_cases hmem : portName ∈ lb.block.outputs
    · obtain ⟨hval, _⟩ := jsIndexOf_eq_indexOf_of_mem lb.block.outputs portName hmem
      simp [getPortPosition, renderedPortCenter, portsOf, hmem, hval]
    · have hneg := jsIndexOf_eq_neg_one_of_not_mem lb.block.outputs portName hmem
      simp [getPortPosition, renderedPortCenter, portsOf, hmem, hneg]

theorem channelProbe_eq_find (p startY endY : ℚ) (blocks : List LayoutBlock) :
    ∀ (n : Nat) (offset : ℚ),
      channelProbe p startY endY blocks n offset =
        ((probeOffsetsAux p n offset).find?
          (fun x => blocksClearAt x startY endY blocks 10)).getD p := by
  intro n
  induction n with
  | zero => intro offset; rfl
  | succ n ih =>
    intro offset
    by_cases hl : blocksClearAt (p - offset) startY endY blocks 10
    · simp [channelProbe, probeOffsetsAux, hl]
    · by_cases hr : blocksClearAt (p + offset) startY endY blocks 10
      · simp [channelProbe, probeOffsetsAux, hl, hr]
      · simp only [channelProbe, probeOffsetsAux, hl, hr, if_false,
          Bool.false_eq_true]
        rw [List.find?_cons_of_neg _ (by simpa using hl),
          List.find?_cons_of_neg _ (by simpa using hr)]
        exact ih (offset + 20)

theorem probeOffsetsAux_fifteen (p : ℚ) :
    probeOffsetsAux p 15 20 = channelProbeOffsets p := by
  simp only [probeOffsetsAux, channelProbeOffsets]
  norm_num

/-- Claim C4: the channel search returns the preferred (midpoint) x when no
block, inflated by the 10-unit margin, blocks it; otherwise it scans the
alternating left/right offsets in 20-unit steps up to 300 and returns the
first clear one; and when no probed x is clear it falls back to the preferred
x, so the connection still gets a routed path. -/
theorem C4_channel_search (p startY endY : ℚ) (blocks : List LayoutBlock) :
    findClearVerticalChannel p startY endY blocks =
      (if blocksClearAt p startY endY blocks 10 then p
       else ((channelProbeOffsets p).find?
          (fun x => blocksClearAt x startY endY blocks 10)).getD p) := by
  unfold findClearVerticalChannel
  by_cases h : blocksClearAt p startY endY blocks 10
  · simp [h]
  · simp only [h, if_false, Bool.false_eq_true]
    rw [channelProbe_eq_find, probeOffsetsAux_fifteen]

theorem computeOrthogonalPath_length_ge_two (fromPort toPort : Pt)
    (allBlocks : List LayoutBlock) (sameGroup : Bool) (verticalOffset : ℚ) :
    2 ≤ (computeOrthogonalPath fromPort toPort allBlocks sameGroup
      verticalOffset).length := by
  simp only [computeOrthogonalPath]
  split_ifs <;> simp

theorem spliceOut_spliceIn {α : Type} (l : List α) (i : Nat) (a b : α)
    (h : i ≤ l.length) : spliceOut (spliceIn l i [a, b]) i 2 = l := by
  unfold spliceIn spliceOut
  have htake : (l.take i ++ [a, b] ++ l.drop i).take i = l.take i := by
    rw [List.append_assoc, List.take_append_of_le_length (by simpa using h),
      List.take_take]
    simp
  have hdrop : (l.take i ++ [a, b] ++ l.drop i).drop (i + 2) = l.drop i := by
    rw [List.append_assoc, List.drop_append_eq_append_drop]
    have hlen : (l.take i).length = i := List.length_take_of_le h
    rw [hlen]
    simp
  rw [htake, hdrop, List.take_append_drop]

/-- Waypoint-free insertion is the identity (the early return in the source). -/
theorem insertWaypointsIntoPath_nil (points : List Pt) :
    insertWaypointsIntoPath points [] = points := rfl

theorem nearestT_foldl_idx_lt (pts : List Pt) (q : Pt) (n : Nat) :
    ∀ (l : List Nat) (st : Option ℚ × Nat × ℚ), (∀ s ∈ l, s < n) → st.2.1 < n →
      (l.foldl (nearestTStep pts q) st).2.1 < n := by
  intro l
  induction l with
  | nil => intro st _ h; exact h
  | cons s rest ih =>
    intro st hl hst
    have hs : s < n := hl s (List.mem_cons_self s rest)
    simp only [List.foldl_cons]
    apply ih _ (fun x hx => hl x (List.mem_cons_of_mem _ hx))
    unfold nearestTStep
    cases hst1 : st.1
    · simpa using hs
    · simp only []
      split
      · simpa using hs
      · simpa using hst

theorem nearestSegWithT_fst_lt (pts : List Pt) (q : Pt) (h : 2 ≤ pts.length) :
    (nearestSegWithT pts q).1 < pts.length - 1 := by
  unfold nearestSegWithT
  apply nearestT_foldl_idx_lt
  · intro s hs
    exact List.mem_range.mp hs
  · simpa using by omega

/-- Single-waypoint expansion of `insertWaypointsIntoPath`. -/
theorem insertWaypointsIntoPath_singleton (pts : List Pt) (w : Pt) :
    insertWaypointsIntoPath pts [w] =
      (let s := (nearestSegWithT pts w).1
       let p1 := pts.getD s ⟨0, 0⟩
       let p2 := pts.getD (s + 1) ⟨0, 0⟩
       if |p1.y - p2.y| < 1 then
         let clampedX := max (min p1.x p2.x + 5) (min (max p1.x p2.x - 5) w.x)
         spliceIn pts (s + 1) [⟨clampedX, p1.y⟩, ⟨clampedX, p1.y⟩]
       else
         let clampedY := max (min p1.y p2.y + 5) (min (max p1.y p2.y - 5) w.y)
         spliceIn pts (s + 1) [⟨p1.x, clampedY⟩, ⟨p1.x, clampedY⟩]) := by
  simp only [insertWaypointsIntoPath, List.isEmpty_cons, Bool.false_eq_true,
    if_false, List.map_cons, List.map_nil, List.insertionSort, List.orderedInsert,
    List.foldl_cons, List.foldl_nil, List.find?_cons]
  simp

theorem clamp_le_bounds (m M w : ℚ) (h : m + 10 ≤ M) :
    m + 5 ≤ max (m + 5) (min (M - 5) w) ∧
    max (m + 5) (min (M - 5) w) ≤ M - 5 := by
  refine ⟨le_max_left _ _, max_le (by linarith) ?_⟩
  exact le_trans (min_le_left _ _) (by linarith)

/-- Claim C5 (amended): when the nearest segment is exactly axis-aligned and at
least 10 units long, the two coincident points `insertWaypointsIntoPath`
splices in lie on that segment, clamped at least 5 units away from both of its
endpoints, so the split stays inside the segment and both resulting
sub-segments are at least 5 units long. -/
theorem C5_waypoint_clamp_amended (pts : List Pt) (w : Pt) (p1 p2 : Pt)
    (hp1 : pts[(nearestSegWithT pts w).1]? = some p1)
    (hp2 : pts[(nearestSegWithT pts w).1 + 1]? = some p2)
    (halign : (p1.y = p2.y ∧ 10 ≤ |p2.x - p1.x|) ∨
      (p1.x = p2.x ∧ 10 ≤ |p2.y - p1.y|)) :
    ∃ q : Pt,
      insertWaypointsIntoPath pts [w] =
        spliceIn pts ((nearestSegWithT pts w).1 + 1) [q, q] ∧
      min p1.x p2.x ≤ q.x ∧ q.x ≤ max p1.x p2.x ∧
      min p1.y p2.y ≤ q.y ∧ q.y ≤ max p1.y p2.y ∧
      5 ≤ |q.x - p1.x| + |q.y - p1.y| ∧ 5 ≤ |q.x - p2.x| + |q.y - p2.y| := by
  have hd1 : pts.getD (nearestSegWithT pts w).1 ⟨0, 0⟩ = p1 := by
    simp [List.getD, hp1]
  have hd2 : pts.getD ((nearestSegWithT pts w).1 + 1) ⟨0, 0⟩ = p2 := by
    simp [List.getD, hp2]
  rw [insertWaypointsIntoPath_singleton]
  simp only [hd1, hd2]
  rcases halign with ⟨hy, hx10⟩ | ⟨hx, hy10⟩
  · -- exactly horizontal segment
    have habs : |p1.y - p2.y| < 1 := by
      rw [hy]
      simp
    rw [if_pos habs]
    set m := min p1.x p2.x with hm
    set M := max p1.x p2.x with hM
    have hMm : M - m = |p2.x - p1.x| := max_sub_min_eq_abs _ _
    have h10 : m + 10 ≤ M := by linarith
    obtain ⟨hlo, hhi⟩ := clamp_le_bounds m M w.x h10
    set c := max (m + 5) (min (M - 5) w.x) with hc
    refine ⟨⟨c, p1.y⟩, rfl, by linarith, by linarith, ?_, ?_, ?_, ?_⟩
    · simp [hy, min_self]
    · simp [hy, max_self]
    · rcases le_total p1.x p2.x with hle | hle
      · have hm1 : m = p1.x := min_eq_left hle
        have h5 : 5 ≤ c - p1.x := by linarith [hm1 ▸ hlo]
        have habs5 : (5 : ℚ) ≤ |c - p1.x| := le_trans h5 (le_abs_self _)
        calc (5 : ℚ) ≤ |c - p1.x| := habs5
          _ ≤ |c - p1.x| + |p1.y - p1.y| := by linarith [abs_nonneg (p1.y - p1.y)]
      · have hM1 : M = p1.x := max_eq_left hle
        have h5 : 5 ≤ p1.x - c := by linarith [hM1 ▸ hhi]
        have habs5 : (5 : ℚ) ≤ |c - p1.x| := by
          rw [abs_sub_comm]
          exact le_trans h5 (le_abs_self _)
        calc (5 : ℚ) ≤ |c - p1.x| := habs5
          _ ≤ |c - p1.x| + |p1.y - p1.y| := by linarith [abs_nonneg (p1.y - p1.y)]
    · rcases le_total p1.x p2.x with hle | hle
      · have hM2 : M = p2.x := max_eq_right hle
        have h5 : 5 ≤ p2.x - c := by linarith [hM2 ▸ hhi]
        have : (5 : ℚ) ≤ |c - p2.x| := by
          rw [abs_sub_comm]
          exact le_trans h5 (le_abs_self _)
        calc (5 : ℚ) ≤ |c - p2.x| := this
          _ ≤ |c - p2.x| + |p1.y - p2.y| := by linarith [abs_nonneg (p1.y - p2.y)]
      · have hm2 : m = p2.x := min_eq_right hle
        have h5 : 5 ≤ c - p2.x := by linarith [hm2 ▸ hlo]
        have : (5 : ℚ) ≤ |c - p2.x| := le_trans h5 (le_abs_self _)
        calc (5 : ℚ) ≤ |c - p2.x| := this
          _ ≤ |c - p2.x| + |p1.y - p2.y| := by linarith [abs_nonneg (p1.y - p2.y)]
  · -- exactly vertical segment
    have habs : ¬(|p1.y - p2.y| < 1) := by
      rw [abs_sub_comm]
      push_neg
      linarith
    rw [if_neg habs]
    set m := min p1.y p2.y with hm
    set M := max p1.y p2.y with hM
    have hMm : M - m = |p2.y - p1.y| := max_sub_min_eq_abs _ _
    have h10 : m + 10 ≤ M := by linarith
    obtain ⟨hlo, hhi⟩ := clamp_le_bounds m M w.y h10
    set c := max (m + 5) (min (M - 5) w.y) with hc
    refine ⟨⟨p1.x, c⟩, rfl, ?_, ?_, by linarith, by linarith, ?_, ?_⟩
    · simp [hx, min_self]
    · simp [hx, max_self]
    · rcases le_total p1.y p2.y with hle | hle
      · have hm1 : m = p1.y := min_eq_left hle
        have h5 : 5 ≤ c - p1.y := by linarith [hm1 ▸ hlo]
        have : (5 : ℚ) ≤ |c - p1.y| := le_trans h5 (le_abs_self _)
        calc (5 : ℚ) ≤ |c - p1.y| := this
          _ ≤ |p1.x - p1.x| + |c - p1.y| := by linarith [abs_nonneg (p1.x - p1.x)]
      · have hM1 : M = p1.y := max_eq_left hle
        have h5 : 5 ≤ p1.y - c := by linarith [hM1 ▸ hhi]
        have : (5 : ℚ) ≤ |c - p1.y| := by
          rw [abs_sub_comm]
          exact le_trans h5 (le_abs_self _)
        calc (5 : ℚ) ≤ |c - p1.y| := this
          _ ≤ |p1.x - p1.x| + |c - p1.y| := by linarith [abs_nonneg (p1.x - p1.x)]
    · rcases le_total p1.y p2.y with hle | hle
      · have hM2 : M = p2.y := max_eq_right hle
        have h5 : 5 ≤ p2.y - c := by linarith [hM2 ▸ hhi]
        have : (5 : ℚ) ≤ |c - p2.y| := by
          rw [abs_sub_comm]
          exact le_trans h5 (le_abs_self _)
        calc (5 : ℚ) ≤ |c - p2.y| := this
          _ ≤ |p1.x - p2.x| + |c - p2.y| := by linarith [abs_nonneg (p1.x - p2.x)]
      · have hm2 : m = p2.y := min_eq_right hle
        have h5 : 5 ≤ c - p2.y := by linarith [hm2 ▸ hlo]
        have : (5 : ℚ) ≤ |c - p2.y| := le_trans h5 (le_abs_self _)
        calc (5 : ℚ) ≤ |c - p2.y| := this
          _ ≤ |p1.x - p2.x| + |c - p2.y| := by linarith [abs_nonneg (p1.x - p2.x)]

/-- Claim C5 counterexample: on the base path `[(0,0), (4,0)]` — a single
horizontal segment only 4 units long — with waypoint `(2,3)`, the clamp
degenerates (`minX = 5 > maxX = -1`) and the spliced points sit at `x = 5`,
outside the segment, violating both the on-segment and the 5-units-inside
parts of the claim. -/
theorem nearestSegWithT_two_points (a b w : Pt) :
    nearestSegWithT [a, b] w =
      (0, segParamT w a b) := by
  simp [nearestSegWithT, nearestTStep, List.range_succ]

theorem C5_waypoint_clamp_counterexample :
    insertWaypointsIntoPath [(⟨0, 0⟩ : Pt), ⟨4, 0⟩] [⟨2, 3⟩] =
      [⟨0, 0⟩, ⟨5, 0⟩, ⟨5, 0⟩, ⟨4, 0⟩] ∧
    (nearestSegWithT [(⟨0, 0⟩ : Pt), ⟨4, 0⟩] ⟨2, 3⟩).1 = 0 ∧
    ¬((5 : ℚ) ≤ max (0 : ℚ) 4) := by
  have hseg : nearestSegWithT [(⟨0, 0⟩ : Pt), ⟨4, 0⟩] ⟨2, 3⟩ = (0, 1 / 2) := by
    rw [nearestSegWithT_two_points]
    norm_num [segParamT]
  refine ⟨?_, by rw [hseg], by norm_num⟩
  rw [insertWaypointsIntoPath_singleton]
  simp only [hseg]
  norm_num [List.getD, spliceIn, min_def, max_def]

/-- Claim C5 witness: the amended theorem applied to the 100-unit horizontal
segment `[(0,0), (100,0)]` with waypoint `(50,7)`. -/
theorem C5_waypoint_clamp_witness :
    ∃ q : Pt,
      insertWaypointsIntoPath [(⟨0, 0⟩ : Pt), ⟨100, 0⟩] [⟨50, 7⟩] =
        spliceIn [(⟨0, 0⟩ : Pt), ⟨100, 0⟩]
          ((nearestSegWithT [(⟨0, 0⟩ : Pt), ⟨100, 0⟩] ⟨50, 7⟩).1 + 1) [q, q] ∧
      min (0 : ℚ) 100 ≤ q.x ∧ q.x ≤ max (0 : ℚ) 100 ∧
      min (0 : ℚ) 0 ≤ q.y ∧ q.y ≤ max (0 : ℚ) 0 ∧
      5 ≤ |q.x - 0| + |q.y - 0| ∧ 5 ≤ |q.x - 100| + |q.y - 0| := by
  have hseg : nearestSegWithT [(⟨0, 0⟩ : Pt), ⟨100, 0⟩] ⟨50, 7⟩ = (0, 1 / 2) := by
    rw [nearestSegWithT_two_points]
    norm_num [segParamT]
  exact C5_waypoint_clamp_amended [⟨0, 0⟩, ⟨100, 0⟩] ⟨50, 7⟩ ⟨0, 0⟩ ⟨100, 0⟩
    (by rw [hseg]; rfl) (by rw [hseg]; rfl) (Or.inl ⟨rfl, by norm_num⟩)

theorem keys_replaceA {κ ν : Type} [DecidableEq κ]
    (m : List (κ × ν)) (k : κ) (v : ν) (hit : (lookupA m k).isSome) :
    (replaceA m k v).map Prod.fst = m.map Prod.fst := by
  induction m with
  | nil => rfl
  | cons hd tl ih =>
    obtain ⟨hk, hv⟩ := hd
    by_cases hkk : hk = k
    · subst hkk
      simp [replaceA]
    · simp only [lookupA, hkk, if_false] at hit
      simp [replaceA, hkk, ih hit]

theorem lookupA_isSome_of_key_mem {κ ν : Type} [DecidableEq κ]
    (m : List (κ × ν)) (k : κ) (h : k ∈ m.map Prod.fst) :
    (lookupA m k).isSome := by
  induction m with
  | nil => simp at h
  | cons hd tl ih =>
    obtain ⟨hk, hv⟩ := hd
    by_cases hkk : hk = k
    · simp [lookupA, hkk]
    · have : k ∈ tl.map Prod.fst := by
        simp only [List.map_cons, List.mem_cons] at h
        rcases h with heq | htl
        · exact absurd heq.symm hkk
        · exact htl
      simpa [lookupA, hkk] using ih this

theorem keysNodup_mapPush {κ ν : Type} [DecidableEq κ]
    (m : List (κ × List ν)) (k : κ) (v : ν)
    (h : (m.map Prod.fst).Nodup) : ((mapPush m k v).map Prod.fst).Nodup := by
  unfold mapPush
  cases hm : lookupA m k with
  | some l =>
    have hit : (lookupA m k).isSome := by simp [hm]
    rw [keys_replaceA m k _ hit]
    exact h
  | none =>
    have hk : k ∉ m.map Prod.fst := by
      intro hmem
      have := lookupA_isSome_of_key_mem m k hmem
      simp [hm] at this
    simpa using List.Nodup.append h (by simp) (by simpa using hk)

theorem lookupA_eq_of_mem_nodup {κ ν : Type} [DecidableEq κ]
    (m : List (κ × ν)) (k : κ) (v : ν)
    (hmem : (k, v) ∈ m) (hnodup : (m.map Prod.fst).Nodup) :
    lookupA m k = some v := by
  induction m with
  | nil => cases hmem
  | cons hd tl ih =>
    obtain ⟨hk, hv⟩ := hd
    simp only [List.map_cons, List.nodup_cons] at hnodup
    obtain ⟨hknotin, htlnodup⟩ := hnodup
    rcases List.mem_cons.mp hmem with heq | htl
    · obtain ⟨h1, h2⟩ := Prod.mk.injEq _ _ _ _ |>.mp heq.symm
      rw [h1, h2]
      simp [lookupA]
    · have hk_ne : hk ≠ k := by
        intro hkk
        subst hkk
        exact hknotin (List.mem_map.mpr ⟨(hk, v), htl, rfl⟩)
      simpa [lookupA, hk_ne] using ih htl htlnodup

theorem lookupA_mem {κ ν : Type} [DecidableEq κ]
    (m : List (κ × ν)) (k : κ) (v : ν) (h : lookupA m k = some v) : (k, v) ∈ m := by
  induction m with
  | nil => cases h
  | cons hd tl ih =>
    obtain ⟨hk, hv⟩ := hd
    by_cases hkk : hk = k
    · subst hkk
      simp only [lookupA, if_pos rfl] at h
      have : hv = v := by injection h
      subst this
      exact List.mem_cons_self _ _
    · simp only [lookupA, hkk, if_false] at h
      exact List.mem_cons_of_mem _ (ih h)

theorem pairGroups_fold_some (key : String) :
    ∀ (l : List (Nat × BlockConnection)) (m0 : List (String × List Nat))
      (g0 : List Nat), lookupA m0 key = some g0 →
      lookupA (l.foldl (fun m ic => mapPush m (pairKey ic.2) ic.1) m0) key =
        some (g0 ++ (l.filter (fun p => pairKey p.2 = key)).map Prod.fst) := by
  intro l
  induction l with
  | nil => intro m0 g0 h; simpa using h
  | cons hd rest ih =>
    intro m0 g0 h
    obtain ⟨i, c⟩ := hd
    by_cases hpk : pairKey c = key
    · have hm0' : lookupA (mapPush m0 (pairKey c) i) key = some (g0 ++ [i]) := by
        rw [hpk, lookupA_mapPush_self, h]
        rfl
      simp only [List.foldl_cons]
      rw [ih _ _ hm0']
      simp [hpk, List.append_assoc]
    · have hm0' : lookupA (mapPush m0 (pairKey c) i) key = some g0 := by
        rw [lookupA_mapPush_ne _ _ _ _ (fun hc => hpk hc.symm), h]
      simp only [List.foldl_cons]
      rw [ih _ _ hm0']
      simp [hpk]

theorem pairGroups_fold_none (key : String) :
    ∀ (l : List (Nat × BlockConnection)) (m0 : List (String × List Nat)),
      lookupA m0 key = none →
      lookupA (l.foldl (fun m ic => mapPush m (pairKey ic.2) ic.1) m0) key =
        (if (l.filter (fun p => pairKey p.2 = key)).map Prod.fst = [] then none
         else some ((l.filter (fun p => pairKey p.2 = key)).map Prod.fst)) := by
  intro l
  induction l with
  | nil => intro m0 h; simpa using h
  | cons hd rest ih =>
    intro m0 h
    obtain ⟨i, c⟩ := hd
    by_cases hpk : pairKey c = key
    · have hm0' : lookupA (mapPush m0 (pairKey c) i) key = some [i] := by
        rw [hpk, lookupA_mapPush_self, h]
        rfl
      simp only [List.foldl_cons]
      rw [pairGroups_fold_some key rest _ _ hm0']
      simp [hpk]
    · have hm0' : lookupA (mapPush m0 (pairKey c) i) key = none := by
        rw [lookupA_mapPush_ne _ _ _ _ (fun hc => hpk hc.symm), h]
      simp only [List.foldl_cons]
      rw [ih _ hm0']
      have hfc : List.filter (fun p => decide (pairKey p.2 = key)) ((i, c) :: rest) =
          List.filter (fun p => decide (pairKey p.2 = key)) rest := by
        simp [hpk]
      rw [hfc]

theorem pairGroups_lookup (conns : List BlockConnection) (key : String) :
    lookupA (pairGroups conns) key =
      (if specIndices conns key = [] then none else some (specIndices conns key)) :=
  pairGroups_fold_none key conns.enum [] rfl

theorem pairGroups_keysNodup (conns : List BlockConnection) :
    ((pairGroups conns).map Prod.fst).Nodup := by
  unfold pairGroups
  generalize conns.enum = l
  have base : (([] : List (String × List Nat)).map Prod.fst).Nodup := by simp
  revert base
  generalize ([] : List (String × List Nat)) = m0
  induction l generalizing m0 with
  | nil => intro h; simpa using h
  | cons hd rest ih =>
    intro h
    simp only [List.foldl_cons]
    exact ih _ (keysNodup_mapPush _ _ _ h)

theorem specIndices_nodup (conns : List BlockConnection) (key : String) :
    (specIndices conns key).Nodup := by
  unfold specIndices
  have hsub : ((conns.enum.filter (fun p => pairKey p.2 = key)).map Prod.fst).Sublist
      (conns.enum.map Prod.fst) :=
    List.Sublist.map _ (List.filter_sublist _)
  have : (conns.enum.map Prod.fst).Nodup := by
    rw [List.enum_map_fst]
    exact List.nodup_range _
  exact List.Sublist.nodup hsub this

theorem mem_specIndices (conns : List BlockConnection) (key : String) (i : Nat) :
    i ∈ specIndices conns key ↔
      ∃ c, conns[i]? = some c ∧ pairKey c = key := by
  unfold specIndices
  simp only [List.mem_map, List.mem_filter]
  constructor
  · rintro ⟨⟨i', c⟩, ⟨hmem, hkey⟩, hfst⟩
    subst hfst
    refine ⟨c, ?_, by simpa using hkey⟩
    exact (List.mk_mem_enum_iff_getElem?).mp hmem
  · rintro ⟨c, hget, hkey⟩
    exact ⟨(i, c), ⟨(List.mk_mem_enum_iff_getElem?).mpr hget, by simpa using hkey⟩, rfl⟩

theorem pairGroups_mem_eq (conns : List BlockConnection) (key : String)
    (G : List Nat) (h : (key, G) ∈ pairGroups conns) :
    G = specIndices conns key := by
  have hl := lookupA_eq_of_mem_nodup _ _ _ h (pairGroups_keysNodup conns)
  rw [pairGroups_lookup] at hl
  by_cases hnil : specIndices conns key = []
  · simp [hnil] at hl
  · rw [if_neg hnil] at hl
    exact (Option.some.inj hl).symm

theorem foldl_mapSet_lookup_skip (f : Nat → ℚ) :
    ∀ (L : List (Nat × Nat)) (offs : List (Nat × ℚ)) (i : Nat),
      (∀ pi ∈ L, pi.2 ≠ i) →
      lookupA (L.foldl (fun offs pi => mapSet offs pi.2 (f pi.1)) offs) i =
        lookupA offs i := by
  intro L
  induction L with
  | nil => intro offs i _; rfl
  | cons hd rest ih =>
    intro offs i h
    simp only [List.foldl_cons]
    rw [ih _ _ (fun pi hpi => h pi (List.mem_cons_of_mem _ hpi)),
      lookupA_mapSet_ne _ _ _ _ (fun hc => h hd (List.mem_cons_self _ _) hc.symm)]

theorem foldl_mapSet_lookup_hit (f : Nat → ℚ) :
    ∀ (L : List (Nat × Nat)) (offs : List (Nat × ℚ)) (i pos : Nat),
      (pos, i) ∈ L → (L.map Prod.snd).Nodup →
      lookupA (L.foldl (fun offs pi => mapSet offs pi.2 (f pi.1)) offs) i =
        some (f pos) := by
  intro L
  induction L with
  | nil => intro _ _ _ h; cases h
  | cons hd rest ih =>
    intro offs i pos hmem hnodup
    obtain ⟨p0, i0⟩ := hd
    simp only [List.map_cons, List.nodup_cons] at hnodup
    obtain ⟨hnotin, hrestnodup⟩ := hnodup
    rcases List.mem_cons.mp hmem with heq | htl
    · obtain ⟨h1, h2⟩ := Prod.mk.injEq _ _ _ _ |>.mp heq
      subst h1
      subst h2
      simp only [List.foldl_cons]
      rw [foldl_mapSet_lookup_skip f rest _ _ ?notin, lookupA_mapSet_self]
      case notin =>
        intro pi hpi hc
        exact hnotin (hc ▸ List.mem_map.mpr ⟨pi, hpi, rfl⟩)
    · have hne : i0 ≠ i := by
        intro hc
        subst hc
        exact hnotin (List.mem_map.mpr ⟨(pos, i0), htl, rfl⟩)
      simp only [List.foldl_cons]
      exact ih _ _ _ htl hrestnodup

theorem applyGroupOffsets_lookup_not_mem (offs : List (Nat × ℚ))
    (indices : List Nat) (i : Nat) (h : i ∉ indices) :
    lookupA (applyGroupOffsets offs indices) i = lookupA offs i := by
  unfold applyGroupOffsets
  apply foldl_mapSet_lookup_skip
  intro pi hpi hc
  apply h
  rw [← hc]
  have := List.enum_map_snd indices
  exact this ▸ List.mem_map.mpr ⟨pi, hpi, rfl⟩

theorem applyGroupOffsets_lookup_hit (offs : List (Nat × ℚ))
    (indices : List Nat) (i pos : Nat) (hmem : (pos, i) ∈ indices.enum)
    (hnodup : indices.Nodup) :
    lookupA (applyGroupOffsets offs indices) i =
      some (spreadOffset indices.length pos) := by
  unfold applyGroupOffsets
  apply foldl_mapSet_lookup_hit _ _ _ _ _ hmem
  rw [List.enum_map_snd]
  exact hnodup

theorem foldl_groups_skip :
    ∀ (gs : List (String × List Nat)) (offs : List (Nat × ℚ)) (i : Nat),
      (∀ e ∈ gs, i ∉ e.2) →
      lookupA (gs.foldl (fun o e => applyGroupOffsets o e.2) offs) i =
        lookupA offs i := by
  intro gs
  induction gs with
  | nil => intro _ _ _; rfl
  | cons hd rest ih =>
    intro offs i h
    simp only [List.foldl_cons]
    rw [ih _ _ (fun e he => h e (List.mem_cons_of_mem _ he)),
      applyGroupOffsets_lookup_not_mem _ _ _ (h hd (List.mem_cons_self _ _))]

/-- Core spreading result: a connection index `i` at position `pos` of its
pair group receives exactly `spreadOffset groupSize pos`. -/
theorem connectionOffsets_lookup (conns : List BlockConnection) (key : String)
    (i pos : Nat) (hmem : (pos, i) ∈ (specIndices conns key).enum) :
    lookupA (connectionOffsets conns) i =
      some (spreadOffset (specIndices conns key).length pos) := by
  have hiG : i ∈ specIndices conns key := by
    have := List.enum_map_snd (specIndices conns key)
    exact this ▸ List.mem_map.mpr ⟨(pos, i), hmem, rfl⟩
  have hGnil : specIndices conns key ≠ [] := by
    intro hc
    rw [hc] at hiG
    cases hiG
  have hkey_mem : (key, specIndices conns key) ∈ pairGroups conns := by
    apply lookupA_mem
    rw [pairGroups_lookup, if_neg hGnil]
  obtain ⟨pre, post, hsplit⟩ := List.append_of_mem hkey_mem
  have hnodup := pairGroups_keysNodup conns
  unfold connectionOffsets
  rw [hsplit]
  rw [List.foldl_append, List.foldl_cons]
  -- entries in `post` have keys different from `key` and so do not contain `i`
  have hpost : ∀ e ∈ post, i ∉ e.2 := by
    intro e he hi
    obtain ⟨k', G'⟩ := e
    have he' : (k', G') ∈ pairGroups conns := by
      rw [hsplit]
      exact List.mem_append.mpr (Or.inr (List.mem_cons_of_mem _ he))
    have hG' : G' = specIndices conns k' := pairGroups_mem_eq conns k' G' he'
    have hk'ne : k' ≠ key := by
      rw [hsplit] at hnodup
      simp only [List.map_append, List.map_cons] at hnodup
      have := (List.nodup_append.mp hnodup).2.1
      rw [List.nodup_cons] at this
      intro hc
      subst hc
      exact this.1 (List.mem_map.mpr ⟨(k', G'), he, rfl⟩)
    rw [hG'] at hi
    obtain ⟨c, hc, hck⟩ := (mem_specIndices conns k' i).mp hi
    obtain ⟨c2, hc2, hck2⟩ := (mem_specIndices conns key i).mp hiG
    rw [hc] at hc2
    exact hk'ne ((Option.some.inj hc2 ▸ hck : pairKey c2 = k') ▸ hck2.symm ▸ rfl)
  rw [foldl_groups_skip post _ i hpost]
  exact applyGroupOffsets_lookup_hit _ _ _ _ hmem (specIndices_nodup conns key)

/-- Claim C8: with exactly three connections sharing an unordered pair key —
`specIndices conns key = [i, j, k]` in stable index order — the spread
computation assigns offsets `-15`, `0`, `+15` to `i`, `j`, `k` respectively,
and a connection alone in its pair group gets offset `0`. -/
theorem C8_connection_spreading (conns : List BlockConnection) (key : String)
    (i j k : Nat) :
    (specIndices conns key = [i, j, k] →
      lookupA (connectionOffsets conns) i = some (-15) ∧
      lookupA (connectionOffsets conns) j = some 0 ∧
      lookupA (connectionOffsets conns) k = some 15) ∧
    (specIndices conns key = [i] →
      lookupA (connectionOffsets conns) i = some 0) := by
  constructor
  · intro hG
    have h0 : (0, i) ∈ (specIndices conns key).enum := by
      rw [hG]
      simp [List.enum]
    have h1 : (1, j) ∈ (specIndices conns key).enum := by
      rw [hG]
      simp [List.enum]
    have h2 : (2, k) ∈ (specIndices conns key).enum := by
      rw [hG]
      simp [List.enum]
    have hi := connectionOffsets_lookup conns key i 0 h0
    have hj := connectionOffsets_lookup conns key j 1 h1
    have hk := connectionOffsets_lookup conns key k 2 h2
    rw [hG] at hi hj hk
    refine ⟨?_, ?_, ?_⟩
    · rw [hi]
      norm_num [spreadOffset, CONNECTION_SPREAD]
    · rw [hj]
      norm_num [spreadOffset, CONNECTION_SPREAD]
    · rw [hk]
      norm_num [spreadOffset, CONNECTION_SPREAD]
  · intro hG
    have h0 : (0, i) ∈ (specIndices conns key).enum := by
      rw [hG]
      simp [List.enum]
    have hi := connectionOffsets_lookup conns key i 0 h0
    rw [hG] at hi
    rw [hi]
    norm_num [spreadOffset, CONNECTION_SPREAD]

/-- Claim C8 witness: three parallel `A → B` connections (indices 0, 1, 2) and
one lone `C → D` connection (index 3). -/
theorem C8_connection_spreading_witness :
    (lookupA (connectionOffsets
        [⟨"A", "B", "s1", "data"⟩, ⟨"A", "B", "s2", "data"⟩,
         ⟨"A", "B", "s3", "data"⟩, ⟨"C", "D", "s4", "data"⟩]) 0 = some (-15) ∧
     lookupA (connectionOffsets
        [⟨"A", "B", "s1", "data"⟩, ⟨"A", "B", "s2", "data"⟩,
         ⟨"A", "B", "s3", "data"⟩, ⟨"C", "D", "s4", "data"⟩]) 1 = some 0 ∧
     lookupA (connectionOffsets
        [⟨"A", "B", "s1", "data"⟩, ⟨"A", "B", "s2", "data"⟩,
         ⟨"A", "B", "s3", "data"⟩, ⟨"C", "D", "s4", "data"⟩]) 2 = some 15) ∧
    lookupA (connectionOffsets
        [⟨"A", "B", "s1", "data"⟩, ⟨"A", "B", "s2", "data"⟩,
         ⟨"A", "B", "s3", "data"⟩, ⟨"C", "D", "s4", "data"⟩]) 3 = some 0 :=
  ⟨(C8_connection_spreading _ "A<->B" 0 1 2).1 (by
      have hd1 : ("A" : String).data ≤ ("B" : String).data := by decide
      have hd2 : ("C" : String).data ≤ ("D" : String).data := by decide
      have hne : (("C" : String) ++ "<->" ++ "D") ≠ "A<->B" := by decide
      have heq : (("A" : String) ++ "<->" ++ "B") = "A<->B" := rfl
      simp [specIndices, pairKey, List.enum, List.enumFrom, List.filter_cons,
        hd1, hd2, hne, heq]),
   (C8_connection_spreading _ "C<->D" 3 0 0).2 (by
      have hd1 : ("A" : String).data ≤ ("B" : String).data := by decide
      have hd2 : ("C" : String).data ≤ ("D" : String).data := by decide
      have hne : (("A" : String) ++ "<->" ++ "B") ≠ "C<->D" := by decide
      have heq : (("C" : String) ++ "<->" ++ "D") = "C<->D" := rfl
      simp [specIndices, pairKey, List.enum, List.enumFrom, List.filter_cons,
        hd1, hd2, hne, heq])⟩

/-- Claim C3: what the load path does on the three kinds of degraded record.
A missing record and an unparseable record fall back cleanly (no throw, all
three collections stay empty), but a record that parses to an object without
the three lists makes the effect throw a `TypeError` when it reads
`saved.blockPositions.length` — the unvalidated cast in `loadLayout` lets it
through.  This contradicts the claim (and §6 of the spec), so the claim is
recorded as a code bug, with this theorem evaluating the code on the failing
input. -/
theorem C3_load_missing_or_corrupt (designId : String) :
    loadLayoutEffect [] designId ⟨[], [], []⟩ = .ok ⟨[], [], []⟩ ∧
    loadLayoutEffect [(getLayoutKey designId, .malformed)] designId ⟨[], [], []⟩ =
      .ok ⟨[], [], []⟩ ∧
    loadLayoutEffect [(getLayoutKey designId, .record none none none)] designId
      ⟨[], [], []⟩ = .error .typeError := by
  refine ⟨rfl, ?_, ?_⟩ <;>
    simp [loadLayoutEffect, loadLayout, lookupA, getLayoutKey]

/-- Claim C10: when all three override collections are empty the save effect
schedules no write, the stored record for the design id is untouched, and the
next mount's `loadLayout` still sees the previously persisted layout. -/
theorem C10_empty_state_save_skipped (store : Store) (designId : String)
    (s : DiagramState) (h1 : s.blockPositionOverrides = [])
    (h2 : s.connPointOverrides = []) (h3 : s.connWaypoints = []) :
    saveEffectWrite s = none ∧
    applySave store designId (saveEffectWrite s) = store ∧
    loadLayout (applySave store designId (saveEffectWrite s)) designId =
      loadLayout store designId := by
  have hw : saveEffectWrite s = none := by
    simp [saveEffectWrite, h1, h2, h3]
  exact ⟨hw, by rw [hw]; rfl, by rw [hw]; rfl⟩

/-- Claim C10 witness: an empty state over a store holding a non-empty
persisted record. -/
theorem C10_empty_state_save_skipped_witness :
    saveEffectWrite ⟨[], [], []⟩ = none ∧
    applySave [(getLayoutKey "d1", .record (some [("b", ⟨1, 2⟩)]) (some []) (some []))]
      "d1" (saveEffectWrite ⟨[], [], []⟩) =
      [(getLayoutKey "d1", .record (some [("b", ⟨1, 2⟩)]) (some []) (some []))] ∧
    loadLayout (applySave
        [(getLayoutKey "d1", .record (some [("b", ⟨1, 2⟩)]) (some []) (some []))]
        "d1" (saveEffectWrite ⟨[], [], []⟩)) "d1" =
      loadLayout [(getLayoutKey "d1", .record (some [("b", ⟨1, 2⟩)]) (some []) (some []))]
        "d1" :=
  C10_empty_state_save_skipped _ "d1" ⟨[], [], []⟩ rfl rfl rfl

theorem mem_dedupFirstAux {α : Type} [DecidableEq α] (x : α) :
    ∀ (l seen : List α), x ∈ dedupFirstAux seen l ↔ (x ∈ l ∧ x ∉ seen) := by
  intro l
  induction l with
  | nil => intro seen; simp [dedupFirstAux]
  | cons a t ih =>
    intro seen
    by_cases ha : a ∈ seen
    · rw [dedupFirstAux, if_pos ha, ih]
      constructor
      · rintro ⟨hx, hns⟩
        exact ⟨List.mem_cons_of_mem _ hx, hns⟩
      · rintro ⟨hx, hns⟩
        rcases List.mem_cons.mp hx with rfl | hxt
        · exact absurd ha hns
        · exact ⟨hxt, hns⟩
    · rw [dedupFirstAux, if_neg ha]
      by_cases hxa : x = a
      · subst hxa
        simp [ih, ha]
      · simp only [List.mem_cons, hxa, false_or, ih, List.mem_cons]

theorem mem_dedupFirst {α : Type} [DecidableEq α] (x : α) (l : List α) :
    x ∈ dedupFirst l ↔ x ∈ l := by
  rw [dedupFirst, mem_dedupFirstAux]
  simp

/-- Claim C7: dragging block `A` past the 5-pixel commit threshold and
releasing (1) leaves every other entry of the block-position override map
unchanged, (2) leaves the point-override and waypoint collections unchanged,
(3) sets `A`'s override to the start position plus the zoom-scaled delta,
clamped to nonnegative coordinates, and (4) leaves the recomputed layout
position of every block other than `A` exactly as it was. -/
theorem C7_block_drag_frame (blocks : List Block) (conns : List BlockConnection)
    (s : DiagramState) (A : String) (ds : DragStart) (zoom : ℚ) (e : Pt)
    (hthresh : ¬(|e.x - ds.mouseX| < 5 ∧ |e.y - ds.mouseY| < 5)) :
    (∀ id, id ≠ A →
      lookupA (handleCanvasMouseUp
        (handleCanvasMouseMoveBlockDrag A ds zoom e s)).blockPositionOverrides id =
        lookupA s.blockPositionOverrides id) ∧
    (handleCanvasMouseUp
      (handleCanvasMouseMoveBlockDrag A ds zoom e s)).connPointOverrides =
      s.connPointOverrides ∧
    (handleCanvasMouseUp
      (handleCanvasMouseMoveBlockDrag A ds zoom e s)).connWaypoints =
      s.connWaypoints ∧
    lookupA (handleCanvasMouseUp
      (handleCanvasMouseMoveBlockDrag A ds zoom e s)).blockPositionOverrides A =
      some (dragTarget ds zoom e) ∧
    (∀ i lb lb',
      (layoutWithOverrides blocks conns (handleCanvasMouseUp
        (handleCanvasMouseMoveBlockDrag A ds zoom e s)).blockPositionOverrides).get? i =
        some lb' →
      (layoutWithOverrides blocks conns s.blockPositionOverrides).get? i = some lb →
      lb.block.id ≠ A → lb' = lb) := by
  have hstep : handleCanvasMouseUp (handleCanvasMouseMoveBlockDrag A ds zoom e s) =
      { s with blockPositionOverrides :=
          mapSet s.blockPositionOverrides A (dragTarget ds zoom e) } := by
    simp only [handleCanvasMouseUp, handleCanvasMouseMoveBlockDrag]
    rw [if_neg hthresh]
  have hset : (handleCanvasMouseUp
      (handleCanvasMouseMoveBlockDrag A ds zoom e s)).blockPositionOverrides =
      mapSet s.blockPositionOverrides A (dragTarget ds zoom e) := by rw [hstep]
  have hcpo : (handleCanvasMouseUp
      (handleCanvasMouseMoveBlockDrag A ds zoom e s)).connPointOverrides =
      s.connPointOverrides := by rw [hstep]
  have hcw : (handleCanvasMouseUp
      (handleCanvasMouseMoveBlockDrag A ds zoom e s)).connWaypoints =
      s.connWaypoints := by rw [hstep]
  refine ⟨fun id hid => by rw [hset]; exact lookupA_mapSet_ne _ _ _ _ hid, hcpo, hcw,
    by rw [hset]; exact lookupA_mapSet_self _ _ _, ?_⟩
  intro i lb lb' h' h hid
  unfold layoutWithOverrides at h h'
  rw [hset] at h'
  rw [List.get?_map] at h h'
  cases hbase : (layoutBlocks blocks conns).get? i with
  | none =>
    rw [hbase] at h'
    cases h'
  | some b =>
    rw [hbase] at h h'
    simp only [Option.map_some', Option.some.injEq] at h h'
    have hid_b : b.block.id ≠ A := by
      intro hc
      apply hid
      rw [← h]
      cases hm : lookupA s.blockPositionOverrides b.block.id <;> simp [hm, hc]
    rw [lookupA_mapSet_ne _ _ _ _ hid_b] at h'
    rw [← h, ← h']

/-- Claim C7 witness: dragging block "a" by 10 pixels horizontally at zoom 1
from an empty override state. -/
theorem C7_block_drag_frame_witness :
    (∀ id, id ≠ "a" →
      lookupA (handleCanvasMouseUp
        (handleCanvasMouseMoveBlockDrag "a" ⟨0, 0, 0, 0⟩ 1 ⟨10, 0⟩
          ⟨[], [], []⟩)).blockPositionOverrides id =
        lookupA (DiagramState.mk [] [] []).blockPositionOverrides id) ∧
    (handleCanvasMouseUp
      (handleCanvasMouseMoveBlockDrag "a" ⟨0, 0, 0, 0⟩ 1 ⟨10, 0⟩
        ⟨[], [], []⟩)).connPointOverrides =
      (DiagramState.mk [] [] []).connPointOverrides ∧
    (handleCanvasMouseUp
      (handleCanvasMouseMoveBlockDrag "a" ⟨0, 0, 0, 0⟩ 1 ⟨10, 0⟩
        ⟨[], [], []⟩)).connWaypoints =
      (DiagramState.mk [] [] []).connWaypoints ∧
    lookupA (handleCanvasMouseUp
      (handleCanvasMouseMoveBlockDrag "a" ⟨0, 0, 0, 0⟩ 1 ⟨10, 0⟩
        ⟨[], [], []⟩)).blockPositionOverrides "a" =
      some (dragTarget ⟨0, 0, 0, 0⟩ 1 ⟨10, 0⟩) ∧
    (∀ i lb lb',
      (layoutWithOverrides [] [] (handleCanvasMouseUp
        (handleCanvasMouseMoveBlockDrag "a" ⟨0, 0, 0, 0⟩ 1 ⟨10, 0⟩
          ⟨[], [], []⟩)).blockPositionOverrides).get? i = some lb' →
      (layoutWithOverrides [] []
        (DiagramState.mk [] [] []).blockPositionOverrides).get? i = some lb →
      lb.block.id ≠ "a" → lb' = lb) :=
  C7_block_drag_frame [] [] ⟨[], [], []⟩ "a" ⟨0, 0, 0, 0⟩ 1 ⟨10, 0⟩ (by norm_num)

/-! ## BFS layering lemmas (towards claim C1) -/

theorem lookupA_assignFold_pres {α : Type} [DecidableEq α] (col : Nat) :
    ∀ (f : List α) (a : List (α × Nat)) (id : α) (c : Nat),
      lookupA a id = some c → lookupA (assignFold f col a) id = some c := by
  intro f
  induction f with
  | nil => intro a id c h; exact h
  | cons hd t ih =>
    intro a id c h
    rw [assignFold, List.foldl_cons]
    by_cases hs : (lookupA a hd).isSome
    · rw [if_pos hs]
      exact ih a id c h
    · rw [if_neg hs]
      apply ih
      rw [lookupA_append, h]
      rfl

theorem lookupA_assignFold_new {α : Type} [DecidableEq α] (col : Nat) :
    ∀ (f : List α) (a : List (α × Nat)) (id : α),
      lookupA a id = none → id ∈ f →
      lookupA (assignFold f col a) id = some col := by
  intro f
  induction f with
  | nil => intro a id _ hmem; cases hmem
  | cons hd t ih =>
    intro a id hnone hmem
    rw [assignFold, List.foldl_cons]
    by_cases hhd : hd = id
    · subst hhd
      rw [if_neg (by simp [hnone])]
      apply lookupA_assignFold_pres
      rw [lookupA_append, hnone]
      simp [lookupA]
    · have hmem' : id ∈ t := by
        rcases List.mem_cons.mp hmem with heq | ht
        · exact absurd heq.symm hhd
        · exact ht
      by_cases hs : (lookupA a hd).isSome
      · rw [if_pos hs]
        exact ih a id hnone hmem'
      · rw [if_neg hs]
        apply ih _ id _ hmem'
        rw [lookupA_append, hnone]
        simp [lookupA, hhd]

theorem lookupA_assignFold_inv {α : Type} [DecidableEq α] (col : Nat) :
    ∀ (f : List α) (a : List (α × Nat)) (id : α) (c : Nat),
      lookupA (assignFold f col a) id = some c →
      lookupA a id = some c ∨ (lookupA a id = none ∧ id ∈ f ∧ c = col) := by
  intro f
  induction f with
  | nil => intro a id c h; exact Or.inl h
  | cons hd t ih =>
    intro a id c h
    rw [assignFold, List.foldl_cons] at h
    by_cases hs : (lookupA a hd).isSome
    · rw [if_pos hs] at h
      rcases ih a id c h with h1 | ⟨h1, h2, h3⟩
      · exact Or.inl h1
      · exact Or.inr ⟨h1, List.mem_cons_of_mem _ h2, h3⟩
    · rw [if_neg hs] at h
      rcases ih _ id c h with h1 | ⟨h1, h2, h3⟩
      · rw [lookupA_append] at h1
        cases ha : lookupA a id with
        | some c' =>
          rw [ha] at h1
          exact Or.inl (by simpa using h1)
        | none =>
          rw [ha] at h1
          simp only [Option.none_or, lookupA] at h1
          by_cases hhd : hd = id
          · rw [if_pos hhd] at h1
            exact Or.inr ⟨rfl, hhd ▸ List.mem_cons_self _ _,
              (Option.some.inj h1).symm⟩
          · rw [if_neg hhd] at h1
            cases h1
      · rw [lookupA_append] at h1
        cases ha : lookupA a id with
        | some c' => rw [ha] at h1; cases h1
        | none => exact Or.inr ⟨rfl, List.mem_cons_of_mem _ h2, h3⟩

theorem mem_nextInner {α : Type} [DecidableEq α] (a' : List (α × Nat)) :
    ∀ (l : List α) (acc : List α) (x : α),
      (x ∈ l.foldl (fun acc2 dest =>
        if (lookupA a' dest).isSome ∨ dest ∈ acc2 then acc2
        else acc2 ++ [dest]) acc) ↔
      (x ∈ acc ∨ (x ∈ l ∧ lookupA a' x = none)) := by
  intro l
  induction l with
  | nil => intro acc x; simp
  | cons d t ih =>
    intro acc x
    rw [List.foldl_cons]
    by_cases hg : (lookupA a' d).isSome ∨ d ∈ acc
    · rw [if_pos hg, ih]
      constructor
      · rintro (hx | ⟨hxt, hxn⟩)
        · exact Or.inl hx
        · exact Or.inr ⟨List.mem_cons_of_mem _ hxt, hxn⟩
      · rintro (hx | ⟨hxm, hxn⟩)
        · exact Or.inl hx
        · rcases List.mem_cons.mp hxm with rfl | hxt
          · rcases hg with hg | hg
            · rw [hxn] at hg
              cases hg
            · exact Or.inl hg
          · exact Or.inr ⟨hxt, hxn⟩
    · push_neg at hg
      obtain ⟨hgn, hgm⟩ := hg
      have hdn : lookupA a' d = none := by
        cases hd : lookupA a' d
        · rfl
        · rw [hd] at hgn; cases hgn rfl
      rw [if_neg (by simp [hdn, hgm]), ih]
      constructor
      · rintro (hx | ⟨hxt, hxn⟩)
        · rcases List.mem_append.mp hx with hx | hx
          · exact Or.inl hx
          · have : x = d := by simpa using hx
            subst this
            exact Or.inr ⟨List.mem_cons_self _ _, hdn⟩
        · exact Or.inr ⟨List.mem_cons_of_mem _ hxt, hxn⟩
      · rintro (hx | ⟨hxm, hxn⟩)
        · exact Or.inl (List.mem_append.mpr (Or.inl hx))
        · rcases List.mem_cons.mp hxm with rfl | hxt
          · exact Or.inl (List.mem_append.mpr (Or.inr (by simp)))
          · exact Or.inr ⟨hxt, hxn⟩

theorem mem_nextFold_aux {α : Type} [DecidableEq α] (outgoing : α → List α)
    (a' : List (α × Nat)) :
    ∀ (f : List α) (acc : List α) (x : α),
      (x ∈ f.foldl (fun acc id =>
        (outgoing id).foldl (fun acc2 dest =>
          if (lookupA a' dest).isSome ∨ dest ∈ acc2 then acc2
          else acc2 ++ [dest]) acc) acc) ↔
      (x ∈ acc ∨ ∃ u ∈ f, x ∈ outgoing u ∧ lookupA a' x = none) := by
  intro f
  induction f with
  | nil => intro acc x; simp
  | cons u t ih =>
    intro acc x
    rw [List.foldl_cons, ih, mem_nextInner]
    constructor
    · rintro ((hx | ⟨hxo, hxn⟩) | ⟨v, hv, hvo, hvn⟩)
      · exact Or.inl hx
      · exact Or.inr ⟨u, List.mem_cons_self _ _, hxo, hxn⟩
      · exact Or.inr ⟨v, List.mem_cons_of_mem _ hv, hvo, hvn⟩
    · rintro (hx | ⟨v, hv, hvo, hvn⟩)
      · exact Or.inl (Or.inl hx)
      · rcases List.mem_cons.mp hv with rfl | hvt
        · exact Or.inl (Or.inr ⟨hvo, hvn⟩)
        · exact Or.inr ⟨v, hvt, hvo, hvn⟩

theorem mem_nextFold {α : Type} [DecidableEq α] (outgoing : α → List α)
    (f : List α) (a' : List (α × Nat)) (x : α) :
    x ∈ nextFold outgoing f a' ↔
      ∃ u ∈ f, x ∈ outgoing u ∧ lookupA a' x = none := by
  rw [nextFold, mem_nextFold_aux]
  simp

theorem length_filter_isNone_lt {α : Type} [DecidableEq α] :
    ∀ (nodes : List α) (a a' : List (α × Nat)),
      (∀ id, (lookupA a id).isSome → (lookupA a' id).isSome) →
      ∀ x, x ∈ nodes → lookupA a x = none → (lookupA a' x).isSome →
      (nodes.filter (fun id => (lookupA a' id).isNone)).length <
        (nodes.filter (fun id => (lookupA a id).isNone)).length := by
  intro nodes
  induction nodes with
  | nil => intro a a' _ x hx; cases hx
  | cons n ns ih =>
    intro a a' hmono x hx hxa hxa'
    have hmono_none : ∀ id, (lookupA a' id).isNone = true →
        (lookupA a id).isNone = true := by
      intro id h
      cases hai : lookupA a id
      · simp
      · have : (lookupA a' id).isSome := hmono id (by simp [hai])
        rw [Option.isNone_iff_eq_none] at h
        rw [h] at this
        cases this
    have hweak : ∀ (l : List α),
        (l.filter (fun id => (lookupA a' id).isNone)).length ≤
          (l.filter (fun id => (lookupA a id).isNone)).length := by
      intro l
      rw [← List.countP_eq_length_filter, ← List.countP_eq_length_filter]
      exact List.countP_mono_left (fun y _ h => hmono_none y h)
    rcases List.mem_cons.mp hx with rfl | hxns
    · rw [List.filter_cons, List.filter_cons]
      have h1 : ((lookupA a x).isNone : Bool) = true := by simp [hxa]
      have h2 : ((lookupA a' x).isNone : Bool) = false := by
        cases ha' : lookupA a' x
        · rw [ha'] at hxa'; cases hxa'
        · simp [ha']
      rw [h1, h2]
      simp only [if_true, if_false, List.length_cons]
      exact Nat.lt_succ_of_le (hweak ns)
    · have hlt := ih a a' hmono x hxns hxa hxa'
      have hba : ∀ (m : List (α × Nat)),
          ((n :: ns).filter (fun id => (lookupA m id).isNone)).length =
          (if ((lookupA m n).isNone : Bool) then 1 else 0) +
            (ns.filter (fun id => (lookupA m id).isNone)).length := by
        intro m
        rw [List.filter_cons]
        split
        · simp [Nat.add_comm]
        · simp
      have ineq : (if ((lookupA a' n).isNone : Bool) then 1 else 0) ≤
          (if ((lookupA a n).isNone : Bool) then 1 else 0) := by
        by_cases hn' : ((lookupA a' n).isNone : Bool) = true
        · rw [if_pos hn', if_pos (hmono_none n hn')]
        · rw [if_neg hn']
          exact Nat.zero_le _
      rw [hba a, hba a']
      omega

/-- The master invariant lemma for the BFS frontier-expansion loop.  Starting
from a state satisfying the loop invariants, the final assignment map
(1) preserves existing assignments, (2) assigns every frontier member,
(3) is edge-closed with columns growing by at most one along an edge,
(4) gives every node of column `≥ 1` a predecessor in the previous column,
and (5) assigns column 0 only to members of `roots0`. -/
theorem bfsLoop_spec {α : Type} [DecidableEq α] (outgoing : α → List α)
    (nodes : List α) (roots0 : List α)
    (hout : ∀ u, ∀ v ∈ outgoing u, v ∈ nodes) :
    ∀ (fuel : Nat) (frontier : List α) (col : Nat) (assigned : List (α × Nat)),
    (∀ id ∈ frontier, lookupA assigned id = none) →
    (∀ id ∈ frontier, id ∈ nodes) →
    (∀ u cu, lookupA assigned u = some cu → ∀ v ∈ outgoing u,
      (∃ cv, lookupA assigned v = some cv ∧ cv ≤ cu + 1) ∨
      (v ∈ frontier ∧ col ≤ cu + 1)) →
    (∀ u cu, lookupA assigned u = some cu → cu < col) →
    (∀ v ∈ frontier, 1 ≤ col →
      ∃ u, v ∈ outgoing u ∧ lookupA assigned u = some (col - 1)) →
    (∀ v cv, lookupA assigned v = some cv → 1 ≤ cv →
      ∃ u, v ∈ outgoing u ∧ lookupA assigned u = some (cv - 1)) →
    (∀ v, lookupA assigned v = some 0 → v ∈ roots0) →
    (col = 0 → ∀ id ∈ frontier, id ∈ roots0) →
    (nodes.filter (fun id => (lookupA assigned id).isNone)).length < fuel →
    ((∀ id c, lookupA assigned id = some c →
        lookupA (bfsLoop outgoing fuel frontier col assigned).1 id = some c) ∧
     (∀ id ∈ frontier, ∃ c,
        lookupA (bfsLoop outgoing fuel frontier col assigned).1 id = some c) ∧
     (∀ u cu, lookupA (bfsLoop outgoing fuel frontier col assigned).1 u = some cu →
        ∀ v ∈ outgoing u, ∃ cv,
          lookupA (bfsLoop outgoing fuel frontier col assigned).1 v = some cv ∧
          cv ≤ cu + 1) ∧
     (∀ v cv, lookupA (bfsLoop outgoing fuel frontier col assigned).1 v = some cv →
        1 ≤ cv → ∃ u, v ∈ outgoing u ∧
          lookupA (bfsLoop outgoing fuel frontier col assigned).1 u = some (cv - 1)) ∧
     (∀ v, lookupA (bfsLoop outgoing fuel frontier col assigned).1 v = some 0 →
        v ∈ roots0)) := by
  intro fuel
  induction fuel with
  | zero =>
    intro frontier col assigned _ _ _ _ _ _ _ _ hfuel
    exact absurd hfuel (by omega)
  | succ fuel ih =>
    intro frontier col assigned i1 i3 i6 i7a i8 i7b i9 i10 hfuel
    by_cases hfe : frontier.isEmpty
    · have hR : bfsLoop outgoing (fuel + 1) frontier col assigned =
          (assigned, col) := by
        simp only [bfsLoop]
        rw [if_pos hfe]
      have hfr : frontier = [] := by
        cases frontier
        · rfl
        · simp [List.isEmpty] at hfe
      rw [hR]
      refine ⟨fun id c h => h, ?_, ?_, i7b, i9⟩
      · intro id hid
        rw [hfr] at hid
        cases hid
      · intro u cu hu v hv
        rcases i6 u cu hu v hv with ⟨cv, hcv, hle⟩ | ⟨hvf, _⟩
        · exact ⟨cv, hcv, hle⟩
        · rw [hfr] at hvf
          cases hvf
    · have hstep : bfsLoop outgoing (fuel + 1) frontier col assigned =
          bfsLoop outgoing fuel
            (nextFold outgoing frontier (assignFold frontier col assigned))
            (col + 1) (assignFold frontier col assigned) := by
        simp only [bfsLoop]
        rw [if_neg hfe]
      set A' := assignFold frontier col assigned with hA'
      set N := nextFold outgoing frontier A' with hN
      have pres : ∀ id c, lookupA assigned id = some c → lookupA A' id = some c :=
        fun id c h => lookupA_assignFold_pres col frontier assigned id c h
      have hinv : ∀ id c, lookupA A' id = some c →
          lookupA assigned id = some c ∨
            (lookupA assigned id = none ∧ id ∈ frontier ∧ c = col) :=
        fun id c h => lookupA_assignFold_inv col frontier assigned id c h
      have newA : ∀ id, id ∈ frontier → lookupA A' id = some col :=
        fun id hid => lookupA_assignFold_new col frontier assigned id (i1 id hid) hid
      have i1' : ∀ id ∈ N, lookupA A' id = none := by
        intro id hid
        rcases (mem_nextFold outgoing frontier A' id).mp hid with ⟨u, _, _, hnone⟩
        exact hnone
      have i3' : ∀ id ∈ N, id ∈ nodes := by
        intro id hid
        rcases (mem_nextFold outgoing frontier A' id).mp hid with ⟨u, _, huo, _⟩
        exact hout u id huo
      have i6' : ∀ u cu, lookupA A' u = some cu → ∀ v ∈ outgoing u,
          (∃ cv, lookupA A' v = some cv ∧ cv ≤ cu + 1) ∨
          (v ∈ N ∧ col + 1 ≤ cu + 1) := by
        intro u cu hu v hv
        rcases hinv u cu hu with hold | ⟨hnone, hmem, hcu⟩
        · rcases i6 u cu hold v hv with ⟨cv, hcv, hle⟩ | ⟨hvf, hle⟩
          · exact Or.inl ⟨cv, pres v cv hcv, hle⟩
          · exact Or.inl ⟨col, newA v hvf, hle⟩
        · cases hv' : lookupA A' v with
          | some cv =>
            rcases hinv v cv hv' with hvold | ⟨_, _, hcv⟩
            · have hlt := i7a v cv hvold
              exact Or.inl ⟨cv, rfl, by omega⟩
            · exact Or.inl ⟨cv, rfl, by omega⟩
          | none =>
            have hvN : v ∈ N :=
              (mem_nextFold outgoing frontier A' v).mpr ⟨u, hmem, hv, hv'⟩
            exact Or.inr ⟨hvN, by omega⟩
      have i7a' : ∀ u cu, lookupA A' u = some cu → cu < col + 1 := by
        intro u cu hu
        rcases hinv u cu hu with hold | ⟨_, _, rfl⟩
        · exact Nat.lt_succ_of_lt (i7a u cu hold)
        · omega
      have i8' : ∀ v ∈ N, 1 ≤ col + 1 →
          ∃ u, v ∈ outgoing u ∧ lookupA A' u = some (col + 1 - 1) := by
        intro v hv _
        rcases (mem_nextFold outgoing frontier A' v).mp hv with ⟨u, hu, huo, _⟩
        exact ⟨u, huo, by simpa using newA u hu⟩
      have i7b' : ∀ v cv, lookupA A' v = some cv → 1 ≤ cv →
          ∃ u, v ∈ outgoing u ∧ lookupA A' u = some (cv - 1) := by
        intro v cv hvc hcv
        rcases hinv v cv hvc with hold | ⟨_, hmem, rfl⟩
        · rcases i7b v cv hold hcv with ⟨u, huo, hu⟩
          exact ⟨u, huo, pres _ _ hu⟩
        · rcases i8 v hmem hcv with ⟨u, huo, hu⟩
          exact ⟨u, huo, pres _ _ hu⟩
      have i9' : ∀ v, lookupA A' v = some 0 → v ∈ roots0 := by
        intro v hv
        rcases hinv v 0 hv with hold | ⟨_, hmem, hcol⟩
        · exact i9 v hold
        · exact i10 hcol.symm v hmem
      have i10' : col + 1 = 0 → ∀ id ∈ N, id ∈ roots0 :=
        fun h => absurd h (by omega)
      have hfuel' :
          (nodes.filter (fun id => (lookupA A' id).isNone)).length < fuel := by
        have hfr_ne : frontier ≠ [] := by
          intro hc
          rw [hc] at hfe
          simp [List.isEmpty] at hfe
        obtain ⟨h0, hh0⟩ := List.exists_mem_of_ne_nil frontier hfr_ne
        have hmono : ∀ id, (lookupA assigned id).isSome → (lookupA A' id).isSome := by
          intro id h
          cases hh : lookupA assigned id
          · rw [hh] at h
            cases h
          · rw [pres id _ hh]
            rfl
        have hx := length_filter_isNone_lt nodes assigned A' hmono h0
          (i3 h0 hh0) (i1 h0 hh0) (by rw [newA h0 hh0]; rfl)
        omega
      have IH := ih N (col + 1) A' i1' i3' i6' i7a' i8' i7b' i9' i10' hfuel'
      rw [hstep]
      obtain ⟨IH1, IH2, IH3, IH4, IH5⟩ := IH
      refine ⟨?_, ?_, IH3, IH4, IH5⟩
      · intro id c h
        exact IH1 id c (pres id c h)
      · intro id hid
        exact ⟨col, IH1 id col (newA id hid)⟩

theorem wf_of_rank {α : Type} (r : α → α → Prop) (f : α → Nat)
    (h : ∀ a b, r a b → f a < f b) : WellFounded r :=
  Subrelation.wf (fun {a b} hab => h a b hab) (InvImage.wf f Nat.lt_wfRel.wf)

theorem mem_intraOutgoing_iff (gids : List String) (conns : List BlockConnection)
    (u v : String) :
    v ∈ intraOutgoing gids conns u ↔
      ∃ c ∈ conns, c.from_block ∈ gids ∧ c.to_block ∈ gids ∧
        c.from_block = u ∧ c.to_block = v := by
  unfold intraOutgoing
  rw [mem_dedupFirst]
  simp only [List.mem_map, List.mem_filter]
  constructor
  · rintro ⟨c, ⟨hc, hcond⟩, rfl⟩
    simp only [Bool.and_eq_true, decide_eq_true_eq] at hcond
    exact ⟨c, hc, hcond.1.1, hcond.1.2, hcond.2, rfl⟩
  · rintro ⟨c, hc, h1, h2, h3, h4⟩
    refine ⟨c, ⟨hc, ?_⟩, h4⟩
    simp only [Bool.and_eq_true, decide_eq_true_eq]
    exact ⟨⟨h1, h2⟩, h3⟩

theorem mem_intraPreds_iff (gids : List String) (conns : List BlockConnection)
    (v u : String) :
    u ∈ intraPreds gids conns v ↔
      ∃ c ∈ conns, c.from_block ∈ gids ∧ c.to_block ∈ gids ∧
        c.from_block = u ∧ c.to_block = v := by
  unfold intraPreds
  rw [mem_dedupFirst]
  simp only [List.mem_map, List.mem_filter]
  constructor
  · rintro ⟨c, ⟨hc, hcond⟩, rfl⟩
    simp only [Bool.and_eq_true, decide_eq_true_eq] at hcond
    exact ⟨c, hc, hcond.1.1, hcond.1.2, rfl, hcond.2⟩
  · rintro ⟨c, hc, h1, h2, h3, h4⟩
    refine ⟨c, ⟨hc, ?_⟩, h3⟩
    simp only [Bool.and_eq_true, decide_eq_true_eq]
    exact ⟨⟨h1, h2⟩, h4⟩

theorem mem_intraPreds_iff_outgoing (gids : List String)
    (conns : List BlockConnection) (v u : String) :
    u ∈ intraPreds gids conns v ↔ v ∈ intraOutgoing gids conns u := by
  rw [mem_intraPreds_iff, mem_intraOutgoing_iff]

theorem mem_groupRoots_preds_nil (gblocks : List Block)
    (conns : List BlockConnection) (id : String)
    (h : id ∈ groupRoots gblocks conns) :
    intraPreds (groupIds gblocks) conns id = [] := by
  unfold groupRoots at h
  obtain ⟨b, hb, rfl⟩ := List.mem_map.mp h
  have := (List.mem_filter.mp hb).2
  simpa [List.isEmpty_iff] using this

theorem mem_groupRoots_of_preds_nil (gblocks : List Block)
    (conns : List BlockConnection) (id : String)
    (hg : id ∈ groupIds gblocks)
    (h : intraPreds (groupIds gblocks) conns id = []) :
    id ∈ groupRoots gblocks conns := by
  obtain ⟨b, hb, rfl⟩ := List.mem_map.mp hg
  unfold groupRoots
  apply List.mem_map.mpr
  refine ⟨b, List.mem_filter.mpr ⟨hb, ?_⟩, rfl⟩
  simp [List.isEmpty_iff, h]

theorem diamondConns_acyclic : AcyclicConnections diamondConns := by
  apply wf_of_rank _ diamondRank
  rintro x y ⟨c, hc, hf, ht⟩
  simp only [diamondConns, List.mem_cons, List.not_mem_nil, or_false] at hc
  rcases hc with rfl | rfl | rfl <;> subst hf <;> subst ht <;> decide

/-- Claim C1 (amended): for every acyclic input, every hardware group, and
every block `b` of the group with at least one intra-group predecessor, the
column the per-group BFS layering assigns to `b` is exactly
`min(columns of b's intra-group predecessors) + 1`: every predecessor's
column is at least `column(b) - 1`, and some predecessor's column is exactly
`column(b) - 1`.  (The BFS assigns shortest-path depth from the roots, not
the longest-path depth `max(predecessor columns) + 1` the original claim
states; an intra-group connection may point backward, but never jumps
forward by more than one column.) -/
theorem C1_layering_amended (blocks : List Block) (conns : List BlockConnection)
    (hwf : AcyclicConnections conns) (gname : String) (gblocks : List Block)
    (hg : (gname, gblocks) ∈ hwGroupsOf blocks) (b : Block) (hb : b ∈ gblocks)
    (hpred : intraPreds (groupIds gblocks) conns b.id ≠ []) :
    ∃ cb, lookupA (blockColumnsOfGroup gblocks conns) b.id = some cb ∧
      (∀ u ∈ intraPreds (groupIds gblocks) conns b.id,
        ∃ cu, lookupA (blockColumnsOfGroup gblocks conns) u = some cu ∧
          cb ≤ cu + 1) ∧
      (∃ u ∈ intraPreds (groupIds gblocks) conns b.id,
        lookupA (blockColumnsOfGroup gblocks conns) u = some (cb - 1) ∧
          cb = (cb - 1) + 1) := by
  classical
  set gids := groupIds gblocks with hgids
  set og := intraOutgoing gids conns with hog
  set roots := groupRoots gblocks conns with hroots
  have hout : ∀ u, ∀ v ∈ og u, v ∈ gids := by
    intro u v hv
    obtain ⟨c, _, _, h2, _, h4⟩ := (mem_intraOutgoing_iff gids conns u v).mp hv
    exact h4 ▸ h2
  have hroots_sub : ∀ id ∈ roots, id ∈ gids := by
    intro id hid
    obtain ⟨b', hb', rfl⟩ := List.mem_map.mp hid
    exact List.mem_map.mpr ⟨b', (List.mem_filter.mp hb').1, rfl⟩
  have hfuel : (gids.filter (fun id => (lookupA ([] : List (String × Nat)) id).isNone)).length <
      gblocks.length + 1 := by
    have : ∀ id, ((lookupA ([] : List (String × Nat)) id).isNone : Bool) = true := by
      intro id
      rfl
    rw [List.filter_eq_self.mpr (fun id _ => this id)]
    simp [hgids, groupIds]
  obtain ⟨P1, P2, P3, P4, P5⟩ := bfsLoop_spec og gids roots hout
    (gblocks.length + 1) roots 0 []
    (fun id _ => rfl)
    hroots_sub
    (fun u cu h => by cases h)
    (fun u cu h => by cases h)
    (fun v _ h => absurd h (by omega))
    (fun v cv h => by cases h)
    (fun v h => by cases h)
    (fun _ id hid => hid)
    hfuel
  set B := (bfsLoop og (gblocks.length + 1) roots 0
    ([] : List (String × Nat))).1 with hB
  -- under acyclicity, the BFS reaches every id of the group
  have hall : ∀ id ∈ gids, ∃ c, lookupA B id = some c := by
    intro id hidg
    by_contra hnone'
    have hidn : lookupA B id = none := by
      cases h : lookupA B id
      · rfl
      · exact absurd ⟨_, h⟩ hnone'
    obtain ⟨m, hmS, hmin⟩ := hwf.has_min
      {x | x ∈ gids ∧ lookupA B x = none} ⟨id, hidg, hidn⟩
    obtain ⟨hmg, hmn⟩ := hmS
    by_cases hmp : intraPreds gids conns m = []
    · have hmroot : m ∈ roots := mem_groupRoots_of_preds_nil gblocks conns m hmg hmp
      obtain ⟨c, hc⟩ := P2 m hmroot
      rw [hc] at hmn
      cases hmn
    · obtain ⟨u, hu⟩ := List.exists_mem_of_ne_nil _ hmp
      obtain ⟨c, hc, h1, h2, h3, h4⟩ := (mem_intraPreds_iff gids conns m u).mp hu
      have hedge : connEdge conns u m := ⟨c, hc, h3, h4⟩
      have hug : u ∈ gids := h3 ▸ h1
      cases huB : lookupA B u with
      | some cu =>
        have hmo : m ∈ og u := (mem_intraPreds_iff_outgoing gids conns m u).mp hu
        obtain ⟨cv, hcv, _⟩ := P3 u cu huB m hmo
        rw [hcv] at hmn
        cases hmn
      | none => exact hmin u ⟨hug, huB⟩ hedge
  -- the disconnected fallback only appends missing keys
  have hfinal : ∀ id c, lookupA B id = some c →
      lookupA (blockColumnsOfGroup gblocks conns) id = some c := by
    intro id c h
    unfold blockColumnsOfGroup
    exact lookupA_assignFold_pres _ _ _ _ _ h
  have hbg : b.id ∈ gids := List.mem_map.mpr ⟨b, hb, rfl⟩
  obtain ⟨cb, hcb⟩ := hall b.id hbg
  have hcb1 : 1 ≤ cb := by
    rcases Nat.eq_zero_or_pos cb with h0 | h1
    · subst h0
      have : b.id ∈ roots := P5 b.id hcb
      exact absurd (mem_groupRoots_preds_nil gblocks conns b.id this) hpred
    · exact h1
  refine ⟨cb, hfinal _ _ hcb, ?_, ?_⟩
  · intro u hu
    have hug : u ∈ gids := by
      obtain ⟨c, hc, h1, _, h3, _⟩ := (mem_intraPreds_iff gids conns b.id u).mp hu
      exact h3 ▸ h1
    obtain ⟨cu, hcu⟩ := hall u hug
    have hbo : b.id ∈ og u := (mem_intraPreds_iff_outgoing gids conns b.id u).mp hu
    obtain ⟨cv, hcv, hle⟩ := P3 u cu hcu b.id hbo
    have : cv = cb := by
      rw [hcv] at hcb
      exact Option.some.inj hcb
    exact ⟨cu, hfinal _ _ hcu, by omega⟩
  · obtain ⟨u, huo, hu⟩ := P4 b.id cb hcb hcb1
    refine ⟨u, (mem_intraPreds_iff_outgoing gids conns b.id u).mpr huo,
      hfinal _ _ hu, by omega⟩

/-- Counterexample to claim C1 as stated: in the acyclic diamond
`a → b`, `a → c`, `b → c` (one hardware group `H`), block `c` has
intra-group predecessors `a` (column 0) and `b` (column 1), so the claim
demands `column(c) ≥ max(0, 1) + 1 = 2`; the BFS layering assigns
`column(c) = 1`. -/
theorem C1_layering_counterexample :
    AcyclicConnections diamondConns ∧
    hwGroupsOf diamondBlocks = [("H", diamondBlocks)] ∧
    intraPreds (groupIds diamondBlocks) diamondConns "c" = ["a", "b"] ∧
    lookupA (blockColumnsOfGroup diamondBlocks diamondConns) "a" = some 0 ∧
    lookupA (blockColumnsOfGroup diamondBlocks diamondConns) "b" = some 1 ∧
    lookupA (blockColumnsOfGroup diamondBlocks diamondConns) "c" = some 1 ∧
    ¬(max 0 1 + 1 ≤ 1) :=
  ⟨diamondConns_acyclic, by decide, by decide, by decide, by decide, by decide,
    by decide⟩

/-- Witness for the amended claim C1 at the concrete diamond input, with
`b` the sink block `c`. -/
theorem C1_layering_amended_witness :
    AcyclicConnections diamondConns ∧
    ("H", diamondBlocks) ∈ hwGroupsOf diamondBlocks ∧
    (⟨"c", "C", "dac", ["i1", "i2"], [], some "H"⟩ : Block) ∈ diamondBlocks ∧
    intraPreds (groupIds diamondBlocks) diamondConns "c" ≠ [] ∧
    (∃ cb, lookupA (blockColumnsOfGroup diamondBlocks diamondConns) "c" =
        some cb ∧
      (∀ u ∈ intraPreds (groupIds diamondBlocks) diamondConns "c",
        ∃ cu, lookupA (blockColumnsOfGroup diamondBlocks diamondConns) u =
          some cu ∧ cb ≤ cu + 1) ∧
      (∃ u ∈ intraPreds (groupIds diamondBlocks) diamondConns "c",
        lookupA (blockColumnsOfGroup diamondBlocks diamondConns) u =
          some (cb - 1) ∧ cb = (cb - 1) + 1)) :=
  ⟨diamondConns_acyclic, by decide, by decide, by decide,
    C1_layering_amended diamondBlocks diamondConns diamondConns_acyclic "H"
      diamondBlocks (by decide) ⟨"c", "C", "dac", ["i1", "i2"], [], some "H"⟩
      (by decide) (by decide)⟩

theorem basePathOf_length_ge_two (conns : List BlockConnection)
    (layoutMap : List (String × LayoutBlock)) (allBlocks : List LayoutBlock)
    (connIdx : Nat) (p : List Pt)
    (h : basePathOf conns layoutMap allBlocks connIdx = some p) :
    2 ≤ p.length := by
  unfold basePathOf at h
  split at h
  · cases h
  · split at h
    · injection h with h'
      rw [← h']
      exact computeOrthogonalPath_length_ge_two _ _ _ _ _
    · cases h

theorem findRemoveIdx_nil (click : Pt) : findRemoveIdx [] click = none := rfl

theorem findRemoveIdx_self (w : Pt) : findRemoveIdx [w] w = some 0 := by
  unfold findRemoveIdx
  rw [show (List.enum [w]) = [(0, w)] from rfl, List.find?_cons_of_pos]
  · rfl
  · simp only [decide_eq_true_eq]
    norm_num

theorem spliceIn_replicate {α : Type} (z : α) (m i : Nat) :
    spliceIn (List.replicate m z) i [z, z] = List.replicate (m + 2) z := by
  unfold spliceIn
  rw [List.take_replicate, List.drop_replicate,
    show [z, z] = List.replicate 2 z from rfl, ← List.replicate_add,
    ← List.replicate_add]
  congr 1
  omega

theorem spliceOut_replicate {α : Type} (z : α) (m i k : Nat) (h : i + k ≤ m) :
    spliceOut (List.replicate m z) i k = List.replicate (m - k) z := by
  unfold spliceOut
  rw [List.take_replicate, List.drop_replicate, ← List.replicate_add]
  congr 1
  omega

theorem padTo_nil (n : Nat) : padTo [] n = List.replicate n ⟨0, 0⟩ := by
  unfold padTo
  simp

/-- All-zero override deltas are below the `0.1` threshold, so applying them
moves nothing. -/
theorem applyPointOverrides_replicate_zero (pts : List Pt) (k : Nat) :
    applyPointOverrides pts (List.replicate k ⟨0, 0⟩) = pts := by
  unfold applyPointOverrides
  split
  · rfl
  · have h : pts.enum.map (fun ip =>
        if 1 ≤ ip.1 ∧ ip.1 + 1 < pts.length then
          match (List.replicate k (⟨0, 0⟩ : Delta)).get? (ip.1 - 1) with
          | some ov =>
            if 1 / 10 < |ov.dx| ∨ 1 / 10 < |ov.dy| then
              ⟨ip.2.x + ov.dx, ip.2.y + ov.dy⟩
            else ip.2
          | none => ip.2
        else ip.2) = pts.enum.map (fun ip => ip.2) := by
      apply List.map_congr_left
      intro ip _
      by_cases hi : 1 ≤ ip.1 ∧ ip.1 + 1 < pts.length
      · rw [if_pos hi]
        cases hget : (List.replicate k (⟨0, 0⟩ : Delta)).get? (ip.1 - 1) with
        | none => rfl
        | some ov =>
          have hov : ov = ⟨0, 0⟩ :=
            List.eq_of_mem_replicate (List.get?_mem hget)
          subst hov
          norm_num
      · rw [if_neg hi]
    rw [h, List.enum_map_snd]

theorem nearestIdx_foldl_idx_lt (pts : List Pt) (q : Pt) (n : Nat) :
    ∀ (l : List Nat) (st : Option ℚ × Nat), (∀ s ∈ l, s < n) → st.2 < n →
      (l.foldl (nearestIdxStep pts q) st).2 < n := by
  intro l
  induction l with
  | nil => intro st _ h; exact h
  | cons s rest ih =>
    intro st hl hst
    have hs : s < n := hl s (List.mem_cons_self s rest)
    simp only [List.foldl_cons]
    apply ih _ (fun x hx => hl x (List.mem_cons_of_mem _ hx))
    unfold nearestIdxStep
    cases hst1 : st.1
    · simpa using hs
    · simp only []
      split
      · simpa using hs
      · simpa using hst

theorem nearestSegIdx_lt (pts : List Pt) (q : Pt) (h : 2 ≤ pts.length) :
    nearestSegIdx pts q < pts.length - 1 := by
  unfold nearestSegIdx
  apply nearestIdx_foldl_idx_lt
  · intro s hs
    exact List.mem_range.mp hs
  · simpa using by omega

/-- The full insert-then-remove trace on a connection with no pre-existing
waypoints and no pre-existing point overrides: the first double-click
appends the waypoint; the second double-click at the same point removes it
and leaves `basePath.length - 2` zero override entries behind (the padding
added on insertion is never undone), while the rendered geometry before and
after the round trip is the base path in both cases. -/
theorem insertRemove_spec (conns : List BlockConnection)
    (layoutMap : List (String × LayoutBlock)) (allBlocks : List LayoutBlock)
    (connIdx : Nat) (click : Pt) (s : DiagramState) (basePath : List Pt)
    (hbase : basePathOf conns layoutMap allBlocks connIdx = some basePath)
    (hwp : (lookupA s.connWaypoints connIdx).getD [] = [])
    (hov : (lookupA s.connPointOverrides connIdx).getD [] = []) :
    lookupA (handleConnDoubleClick conns layoutMap allBlocks connIdx click
        s).connWaypoints connIdx = some [click] ∧
    lookupA (handleConnDoubleClick conns layoutMap allBlocks connIdx click
        (handleConnDoubleClick conns layoutMap allBlocks connIdx click
          s)).connWaypoints connIdx = none ∧
    (lookupA (handleConnDoubleClick conns layoutMap allBlocks connIdx click
        (handleConnDoubleClick conns layoutMap allBlocks connIdx click
          s)).connPointOverrides connIdx).getD [] =
      List.replicate (basePath.length - 2) ⟨0, 0⟩ ∧
    computedPath conns layoutMap allBlocks
      (handleConnDoubleClick conns layoutMap allBlocks connIdx click
        (handleConnDoubleClick conns layoutMap allBlocks connIdx click s))
      connIdx = some basePath ∧
    computedPath conns layoutMap allBlocks s connIdx = some basePath := by
  have hn2 := basePathOf_length_ge_two conns layoutMap allBlocks connIdx
    basePath hbase
  have harith : basePath.length - 2 + 2 = basePath.length := by omega
  -- the first double-click: pure insertion
  have h1 : handleConnDoubleClick conns layoutMap allBlocks connIdx click s =
      { s with connWaypoints := mapSet s.connWaypoints connIdx [click],
               connPointOverrides := mapSet s.connPointOverrides connIdx
                 (List.replicate basePath.length ⟨0, 0⟩) } := by
    simp only [handleConnDoubleClick, hwp, findRemoveIdx_nil, hbase,
      insertWaypointsIntoPath_nil, hov, padTo_nil, List.nil_append,
      spliceIn_replicate, harith]
  -- the second double-click: removal of the waypoint just inserted
  have hseg : nearestSegIdx basePath click < basePath.length - 1 :=
    nearestSegIdx_lt basePath click hn2
  have hlt : nearestSegIdx basePath click + 0 * 2 <
      (List.replicate basePath.length (⟨0, 0⟩ : Delta)).length := by
    rw [List.length_replicate]
    omega
  have hmin : min 2 ((List.replicate basePath.length (⟨0, 0⟩ : Delta)).length -
      (nearestSegIdx basePath click + 0 * 2)) = 2 := by
    rw [List.length_replicate]
    omega
  have h2 : handleConnDoubleClick conns layoutMap allBlocks connIdx click
      { s with connWaypoints := mapSet s.connWaypoints connIdx [click],
               connPointOverrides := mapSet s.connPointOverrides connIdx
                 (List.replicate basePath.length ⟨0, 0⟩) } =
      DiagramState.mk s.blockPositionOverrides
        (if basePath.length - 2 = 0 then
          mapDelete (mapSet s.connPointOverrides connIdx
            (List.replicate basePath.length ⟨0, 0⟩)) connIdx
        else
          mapSet (mapSet s.connPointOverrides connIdx
            (List.replicate basePath.length ⟨0, 0⟩)) connIdx
            (List.replicate (basePath.length - 2) ⟨0, 0⟩))
        (mapDelete (mapSet s.connWaypoints connIdx [click]) connIdx) := by
    simp only [handleConnDoubleClick, lookupA_mapSet_self, Option.getD_some,
      findRemoveIdx_self]
    simp only [removeWaypoint, lookupA_mapSet_self, Option.getD_some, hbase,
      List.getD_cons_zero]
    rw [show spliceOut [click] 0 1 = ([] : List Pt) from rfl]
    rw [if_pos hlt, hmin, spliceOut_replicate _ _ _ _ (by omega),
      List.length_replicate,
      if_pos (show (([] : List Pt)).length = 0 from rfl)]
  rw [h1, h2]
  dsimp only
  refine ⟨?_, ?_, ?_, ?_, ?_⟩
  · exact lookupA_mapSet_self _ _ _
  · exact lookupA_mapDelete_self _ _
  · by_cases hz : basePath.length - 2 = 0
    · rw [if_pos hz, lookupA_mapDelete_self, hz]
      rfl
    · rw [if_neg hz, lookupA_mapSet_self, Option.getD_some]
  · simp only [computedPath, hbase, lookupA_mapDelete_self, Option.getD_none,
      insertWaypointsIntoPath_nil]
    by_cases hz : basePath.length - 2 = 0
    · rw [if_pos hz, lookupA_mapDelete_self]
    · rw [if_neg hz]
      simp only [lookupA_mapSet_self, List.length_replicate]
      rw [if_pos (show 0 < basePath.length - 2 by omega),
        applyPointOverrides_replicate_zero]
  · simp only [computedPath, hbase, hwp, insertWaypointsIntoPath_nil]
    cases hpo : lookupA s.connPointOverrides connIdx with
    | none => rfl
    | some l =>
      rw [hpo] at hov
      simp only [Option.getD_some] at hov
      subst hov
      rfl

/-- Claim C2 (amended): on a connection with no pre-existing waypoints and no
pre-existing point overrides, double-click insertion of a waypoint followed
by double-click removal of that same waypoint restores the rendered path
geometry (the rendered polyline is the base path both before and after the
round trip) and removes the waypoint, but does NOT restore the point-override
array to its pre-insertion length: the insertion pads the array to the
expanded path's interior-point count and splices in two zero entries, while
the removal only splices two entries out, leaving `basePath.length - 2` zero
entries behind.  (With pre-existing waypoints or overrides, even the geometry
can change, because the removal locates the entries to delete on the
un-waypointed base path while the insertion located them on the expanded
path.) -/
theorem C2_insert_remove_roundtrip (conns : List BlockConnection)
    (layoutMap : List (String × LayoutBlock)) (allBlocks : List LayoutBlock)
    (connIdx : Nat) (click : Pt) (s : DiagramState) (basePath : List Pt)
    (hbase : basePathOf conns layoutMap allBlocks connIdx = some basePath)
    (hwp : (lookupA s.connWaypoints connIdx).getD [] = [])
    (hov : (lookupA s.connPointOverrides connIdx).getD [] = []) :
    lookupA (handleConnDoubleClick conns layoutMap allBlocks connIdx click
        s).connWaypoints connIdx = some [click] ∧
    lookupA (handleConnDoubleClick conns layoutMap allBlocks connIdx click
        (handleConnDoubleClick conns layoutMap allBlocks connIdx click
          s)).connWaypoints connIdx = none ∧
    (lookupA (handleConnDoubleClick conns layoutMap allBlocks connIdx click
        (handleConnDoubleClick conns layoutMap allBlocks connIdx click
          s)).connPointOverrides connIdx).getD [] =
      List.replicate (basePath.length - 2) ⟨0, 0⟩ ∧
    computedPath conns layoutMap allBlocks
      (handleConnDoubleClick conns layoutMap allBlocks connIdx click
        (handleConnDoubleClick conns layoutMap allBlocks connIdx click s))
      connIdx = some basePath ∧
    computedPath conns layoutMap allBlocks s connIdx = some basePath :=
  insertRemove_spec conns layoutMap allBlocks connIdx click s basePath
    hbase hwp hov

theorem cexConnectionOffsets : connectionOffsets cexConns = [(0, 0)] := by
  have h : spreadOffset 1 0 = 0 := by
    norm_num [spreadOffset]
  norm_num [connectionOffsets, pairGroups, applyGroupOffsets, cexConns,
    mapPush, mapSet, lookupA, List.enum, List.enumFrom, h]

theorem cexFromPort : getPortPosition cexLayoutA "s" Side.output = ⟨180, 46⟩ := by
  norm_num [getPortPosition, jsIndexOf, cexLayoutA, cexBlockA, BLOCK_HEADER,
    PORT_ROW, Pt.mk.injEq]

theorem cexToPort : getPortPosition cexLayoutB "s" Side.input = ⟨200, 246⟩ := by
  norm_num [getPortPosition, jsIndexOf, cexLayoutB, cexBlockB, BLOCK_HEADER,
    PORT_ROW, Pt.mk.injEq]

theorem cexPath : computeOrthogonalPath ⟨180, 46⟩ ⟨200, 246⟩ cexLayout false 0 =
    [⟨180, 46⟩, ⟨210, 46⟩, ⟨210, 246⟩, ⟨200, 246⟩] := by
  have h1 : |(200 : ℚ) - 180| = 20 := by
    rw [show (200 : ℚ) - 180 = 20 by norm_num]
    exact abs_of_pos (by norm_num)
  norm_num [computeOrthogonalPath, BLOCK_WIDTH, h1, abs_zero, Pt.mk.injEq]

theorem cexBasePath_eq : basePathOf cexConns cexLayoutMap cexLayout 0 =
    some [⟨180, 46⟩, ⟨210, 46⟩, ⟨210, 246⟩, ⟨200, 246⟩] := by
  have hvo : (lookupA (connectionOffsets cexConns) 0).getD 0 = 0 := by
    rw [cexConnectionOffsets]
    rfl
  simp only [basePathOf,
    show cexConns.get? 0 = some ⟨"a", "b", "s", "data"⟩ from rfl,
    show lookupA cexLayoutMap "a" = some cexLayoutA from rfl,
    show lookupA cexLayoutMap "b" = some cexLayoutB from rfl]
  rw [cexFromPort, cexToPort,
    show areBlocksInSameGroup "a" "b" cexLayoutMap = false from rfl, hvo,
    cexPath]

/-- Counterexample to claim C2 as stated: in the two-block scenario the base
path has 4 points, so inserting a waypoint pads the (empty) override array
to 2 entries and splices in 2 more, and removing that same waypoint only
splices 2 back out — the override array ends the round trip holding 2 zero
entries, not its pre-insertion length 0. -/
theorem C2_insert_remove_counterexample :
    (lookupA (DiagramState.mk [] [] []).connPointOverrides 0).getD [] = [] ∧
    (lookupA (handleConnDoubleClick cexConns cexLayoutMap cexLayout 0
        ⟨210, 146⟩ (handleConnDoubleClick cexConns cexLayoutMap cexLayout 0
          ⟨210, 146⟩ (DiagramState.mk [] [] []))).connPointOverrides 0).getD []
      = [⟨0, 0⟩, ⟨0, 0⟩] ∧
    ¬(([(⟨0, 0⟩ : Delta), ⟨0, 0⟩]).length = (([] : List Delta)).length) := by
  obtain ⟨h1, h2, h3, h4, h5⟩ := insertRemove_spec cexConns cexLayoutMap
    cexLayout 0 ⟨210, 146⟩ (DiagramState.mk [] [] []) _ cexBasePath_eq rfl rfl
  refine ⟨rfl, ?_, by decide⟩
  rw [h3]
  rfl

/-- Witness for the amended claim C2 at the two-block scenario. -/
theorem C2_insert_remove_roundtrip_witness :
    basePathOf cexConns cexLayoutMap cexLayout 0 =
      some [⟨180, 46⟩, ⟨210, 46⟩, ⟨210, 246⟩, ⟨200, 246⟩] ∧
    (lookupA (handleConnDoubleClick cexConns cexLayoutMap cexLayout 0
        ⟨210, 146⟩ (DiagramState.mk [] [] [])).connWaypoints 0 =
      some [⟨210, 146⟩] ∧
    lookupA (handleConnDoubleClick cexConns cexLayoutMap cexLayout 0
        ⟨210, 146⟩ (handleConnDoubleClick cexConns cexLayoutMap cexLayout 0
          ⟨210, 146⟩ (DiagramState.mk [] [] []))).connWaypoints 0 = none ∧
    (lookupA (handleConnDoubleClick cexConns cexLayoutMap cexLayout 0
        ⟨210, 146⟩ (handleConnDoubleClick cexConns cexLayoutMap cexLayout 0
          ⟨210, 146⟩ (DiagramState.mk [] [] []))).connPointOverrides 0).getD []
      = List.replicate
          (([⟨180, 46⟩, ⟨210, 46⟩, ⟨210, 246⟩, ⟨200, 246⟩] : List Pt).length
            - 2) ⟨0, 0⟩ ∧
    computedPath cexConns cexLayoutMap cexLayout
      (handleConnDoubleClick cexConns cexLayoutMap cexLayout 0 ⟨210, 146⟩
        (handleConnDoubleClick cexConns cexLayoutMap cexLayout 0 ⟨210, 146⟩
          (DiagramState.mk [] [] []))) 0 =
        some [⟨180, 46⟩, ⟨210, 46⟩, ⟨210, 246⟩, ⟨200, 246⟩] ∧
    computedPath cexConns cexLayoutMap cexLayout (DiagramState.mk [] [] []) 0 =
      some [⟨180, 46⟩, ⟨210, 46⟩, ⟨210, 246⟩, ⟨200, 246⟩]) :=
  ⟨cexBasePath_eq,
    C2_insert_remove_roundtrip cexConns cexLayoutMap cexLayout 0 ⟨210, 146⟩
      (DiagramState.mk [] [] []) _ cexBasePath_eq rfl rfl⟩

end HardForge
